import Mathlib

/-!
Verification development for the animated code-display engine
(tokenizer, diff algorithm, highlight mapper, animation phase scheduler).

The definitions below are a shallow embedding of the TypeScript source:
source strings are `String` (worked on as `List Char`), JavaScript numbers
used as integers are `Nat`/`Int`, the millisecond/second timing constants
are `Int`/`ℚ`, and the mutable module-level state of the tokenizer
(`globalTokenCounter`, `tokenCache`) is threaded explicitly through a
`TokState` value.  JavaScript `charCodeAt` is modelled as the code point
(`Char.toNat`), which agrees with UTF-16 for all characters in the
basic multilingual plane.
-/

/-- The `CodeToken["type"]` union from `AnimatedCodeDisplay/types.ts`. -/
inductive TokenType where
  | tag
  | text
  | attr
  | string
  | keyword
  | operator
  | punctuation
  | number
  | comment
  | whitespace
deriving DecidableEq, Repr

/-- The source's `"attribute"`/etc. string values of the `type` union
(`attr` renders as `"attribute"`; the constructor is shortened only
because `attribute` is a reserved word in Lean). -/
def tokenTypeName : TokenType → String
  | .tag => "tag"
  | .text => "text"
  | .attr => "attribute"
  | .string => "string"
  | .keyword => "keyword"
  | .operator => "operator"
  | .punctuation => "punctuation"
  | .number => "number"
  | .comment => "comment"
  | .whitespace => "whitespace"

/-- `CodeToken` from `AnimatedCodeDisplay/types.ts`. -/
structure CodeToken where
  type : TokenType
  content : String
  id : String
deriving DecidableEq, Repr

/-- Placeholder used to model out-of-range JavaScript array indexing
(`arr[i]` with `i` in range never produces it). -/
def dummyToken : CodeToken := { type := .text, content := "", id := "" }

/- ### Character classes used by the scanners -/

/-- `'{'` (written via its code so the character does not clash with
string-interpolation braces). -/
def lbraceChar : Char := Char.ofNat 123

/-- `'}'`. -/
def rbraceChar : Char := Char.ofNat 125

/-- The backquote character used for JavaScript template strings. -/
def backquoteChar : Char := Char.ofNat 96

/-- JavaScript's `/\s/` class (whitespace), used by the scanners and by
`String.prototype.trim`. -/
def isJsWhitespace (c : Char) : Bool :=
  c = ' ' || c = '\t' || c = '\n' || c = '\r' || c.toNat = 0xb || c.toNat = 0xc ||
  c.toNat = 0xa0 || c.toNat = 0x1680 || (0x2000 ≤ c.toNat && c.toNat ≤ 0x200a) ||
  c.toNat = 0x2028 || c.toNat = 0x2029 || c.toNat = 0x202f || c.toNat = 0x205f ||
  c.toNat = 0x3000 || c.toNat = 0xfeff

/-- The operator/punctuation character class of `tokenizeJavaScript`:
`/[{}[\]();,.:=+\-*/%<>!&|]/`. -/
def isJsOperatorChar (c : Char) : Bool :=
  c = lbraceChar || c = rbraceChar || c = '[' || c = ']' || c = '(' || c = ')' ||
  c = ';' || c = ',' || c = '.' || c = ':' || c = '=' || c = '+' || c = '-' ||
  c = '*' || c = '/' || c = '%' || c = '<' || c = '>' || c = '!' || c = '&' || c = '|'

/-- `/[a-zA-Z_$]/` — identifier start. -/
def isJsIdentStart (c : Char) : Bool :=
  (c.isUpper || c.isLower) || c = '_' || c = '$'

/-- `/[a-zA-Z0-9_$]/` — identifier continuation. -/
def isJsIdentChar (c : Char) : Bool :=
  (c.isUpper || c.isLower || c.isDigit) || c = '_' || c = '$'

/-- The three-character operator table of `tokenizeJavaScript`. -/
def threeCharOps : List (List Char) :=
  [['=', '=', '='], ['!', '=', '='], ['>', '>', '>'], ['<', '<', '='], ['>', '>', '=']]

/-- The two-character operator table of `tokenizeJavaScript`. -/
def twoCharOps : List (List Char) :=
  [['=', '='], ['!', '='], ['<', '='], ['>', '='], ['&', '&'], ['|', '|'],
   ['+', '+'], ['-', '-'], ['+', '='], ['-', '='], ['*', '='], ['/', '='],
   ['%', '='], ['<', '<'], ['>', '>'], ['=', '>'], ['?', '.']]

/-- The reserved-word list of `tokenizeJavaScript`. -/
def jsKeywords : List String :=
  ["function", "const", "let", "var", "if", "else", "for", "while", "return",
   "class", "import", "export", "default", "async", "await", "try", "catch",
   "finally", "throw", "new", "this", "super", "extends", "static", "public",
   "private", "protected", "interface", "type", "true", "false", "null",
   "undefined", "typeof", "instanceof"]

/- ### Scan helpers shared by the single-pass scanners -/

/-- The body of the `/* */` scan loop: starting just after the `/*` opener,
returns how many further characters the loop consumes.  The loop condition
`end < code.length - 1` holds exactly when at least two characters remain. -/
def blockScan : List Char → Nat
  | '*' :: '/' :: _ => 2
  | _ :: c₂ :: rest => 1 + blockScan (c₂ :: rest)
  | _ => 0

/-- The string-literal scan loop: `prev` is the previously inspected
character (`code[end-1]`), the list is the input from the current scan
position; returns how many characters the loop consumes.  The loop stops
after an unescaped closing quote, or at end of input. -/
def strScan (quote : Char) : Char → List Char → Nat
  | prev, c :: rest =>
      if c = quote && prev ≠ '\\' then 1 else 1 + strScan quote c rest
  | _, [] => 0

/-- One step of `tokenizeJavaScript`'s scan at `code[i] = c`,
`code.substring(i+1) = rest`: the token type recognised and the number of
characters consumed, following the source's branch order. -/
def jsStep (c : Char) (rest : List Char) : TokenType × Nat :=
  if c = '/' && rest.head? = some '/' then
    (.comment, 2 + ((rest.drop 1).takeWhile (fun x => x ≠ '\n')).length)
  else if c = '/' && rest.head? = some '*' then
    (.comment, 2 + blockScan (rest.drop 1))
  else if c = '"' || c = '\'' || c = backquoteChar then
    (.string, 1 + strScan c c rest)
  else if isJsWhitespace c then
    (.whitespace, ((c :: rest).takeWhile isJsWhitespace).length)
  else if c.isDigit then
    (.number, ((c :: rest).takeWhile (fun x => x.isDigit || x = '.')).length)
  else if isJsOperatorChar c then
    if threeCharOps.contains ((c :: rest).take 3) then (.operator, 3)
    else if twoCharOps.contains ((c :: rest).take 2) then (.operator, 2)
    else (.operator, 1)
  else if isJsIdentStart c then
    let content := (c :: rest).takeWhile isJsIdentChar
    (if jsKeywords.contains ⟨content⟩ then .keyword else .text, content.length)
  else
    (.text, 1)

theorem jsStep_pos (c : Char) (rest : List Char) : 1 ≤ (jsStep c rest).2 := by
  unfold jsStep
  split
  · omega
  · split
    · omega
    · split
      · omega
      · split
        · rename_i h3 h2 h1 hws
          simp [List.takeWhile_cons, hws]
        · split
          · rename_i hdig
            simp [List.takeWhile_cons, hdig]
          · split
            · split
              · omega
              · split <;> omega
            · split
              · rename_i hid
                have hic : isJsIdentChar c = true := by
                  simp only [isJsIdentStart, isJsIdentChar] at hid ⊢
                  rcases Bool.or_eq_true_iff.mp hid with h | h
                  · rcases Bool.or_eq_true_iff.mp h with h | h <;> simp [h]
                  · simp [h]
                simp only
                simp [List.takeWhile_cons, hic]
              · omega

/-- The token id `` `${sessionId}-${type}-${g}-${l}-${start}` `` used by the
character scanners. -/
def mkId5 (sessionId : String) (ty : TokenType) (g l start : Nat) : String :=
  sessionId ++ "-" ++ tokenTypeName ty ++ "-" ++ toString g ++ "-" ++
    toString l ++ "-" ++ toString start

/-- The shared shape of the single-pass character scanners
(`tokenizeJavaScript` and `tokenizeCSS`): at each position apply the
per-language `step` rule, emit one token for the consumed characters,
bump both counters, and continue after them.  `pos` is the absolute index
`i`, `g`/`l` the global/local counters.  `fuel` bounds the recursion
depth so the definition is structural (and hence kernel-evaluable); the
entry points pass `fuel = code.length`, which always suffices because
every step consumes at least one character (`jsStep_pos`,
`cssStep_pos`). -/
def scanWith (step : Char → List Char → TokenType × Nat) (sessionId : String) :
    Nat → List Char → Nat → Nat → Nat → List CodeToken
  | _, [], _, _, _ => []
  | 0, _ :: _, _, _, _ => []
  | fuel + 1, c :: rest, pos, g, l =>
    let st := step c rest
    { type := st.1, content := ⟨(c :: rest).take st.2⟩, id := mkId5 sessionId st.1 g l pos } ::
      scanWith step sessionId fuel ((c :: rest).drop st.2) (pos + st.2) (g + 1) (l + 1)

/-- `tokenizeJavaScript(code, sessionId, localCounterStart)`
(tokenizer.ts, lines 121–345), with the read of the mutable
`globalTokenCounter` made explicit as `g`. -/
def tokenizeJavaScript (code sessionId : String) (g localCounterStart : Nat) : List CodeToken :=
  scanWith jsStep sessionId code.data.length code.data 0 g localCounterStart

/-- Concatenation, in order, of the `content` fields of a token list. -/
def tokensText (ts : List CodeToken) : String :=
  ⟨(ts.map (fun t => t.content.data)).flatten⟩

theorem scanWith_join (step : Char → List Char → TokenType × Nat)
    (hstep : ∀ c r, 1 ≤ (step c r).2) (sessionId : String) :
    ∀ fuel (s : List Char), s.length ≤ fuel → ∀ pos g l,
      ((scanWith step sessionId fuel s pos g l).map (fun t => t.content.data)).flatten = s := by
  intro fuel
  induction fuel with
  | zero =>
    intro s hs pos g l
    have : s = [] := List.length_eq_zero.mp (Nat.le_zero.mp hs)
    subst this
    simp [scanWith]
  | succ n ih =>
    intro s hs pos g l
    cases s with
    | nil => simp [scanWith]
    | cons c rest =>
      rw [scanWith]
      simp only [List.map_cons, List.flatten_cons]
      rw [ih ((c :: rest).drop (step c rest).2)
        (by
          have := hstep c rest
          simp only [List.length_drop, List.length_cons]
          simp only [List.length_cons] at hs
          omega)]
      exact List.take_append_drop _ _

theorem scanWith_content_ne (step : Char → List Char → TokenType × Nat)
    (hstep : ∀ c r, 1 ≤ (step c r).2) (sessionId : String) :
    ∀ fuel (s : List Char), ∀ pos g l,
      ∀ t ∈ scanWith step sessionId fuel s pos g l, t.content ≠ "" := by
  intro fuel
  induction fuel with
  | zero =>
    intro s pos g l t ht
    cases s <;> simp [scanWith] at ht
  | succ n ih =>
    intro s pos g l t ht
    cases s with
    | nil => simp [scanWith] at ht
    | cons c rest =>
      rw [scanWith] at ht
      rcases List.mem_cons.mp ht with h | h
      · subst h
        simp only [ne_eq]
        intro hcon
        have hd : (List.take (step c rest).2 (c :: rest)) = ([] : List Char) :=
          congrArg String.data hcon
        rcases Nat.exists_eq_succ_of_ne_zero (n := (step c rest).2)
          (by have := hstep c rest; omega) with ⟨k, hk2⟩
        rw [hk2] at hd
        simp [List.take_succ_cons] at hd
      · exact ih ((c :: rest).drop (step c rest).2) _ _ _ t h

theorem tokenizeJavaScript_roundtrip (code sessionId : String) (g l : Nat) :
    tokensText (tokenizeJavaScript code sessionId g l) = code := by
  unfold tokensText tokenizeJavaScript
  have := scanWith_join jsStep jsStep_pos sessionId code.data.length code.data (le_refl _) 0 g l
  rw [this]

/- ### The CSS scanner -/

/-- The `cssProperties` table of `tokenizeCSS`. -/
def cssProperties : List String :=
  ["color", "background", "background-color", "font-size", "font-family",
   "font-weight", "margin", "padding", "border", "width", "height",
   "display", "position", "top", "left", "right", "bottom", "z-index",
   "opacity", "transform", "transition", "animation", "flex", "grid",
   "justify-content", "align-items", "text-align", "line-height",
   "box-shadow", "border-radius", "overflow", "visibility", "cursor",
   "pointer-events", "user-select", "white-space", "text-decoration",
   "vertical-align", "float", "clear", "content", "list-style",
   "outline", "resize", "min-width", "max-width", "min-height", "max-height"]

/-- The `cssPseudos` table of `tokenizeCSS`. -/
def cssPseudos : List String :=
  ["hover", "focus", "active", "visited", "first-child", "last-child",
   "nth-child", "before", "after", "first-line", "first-letter"]

/-- The `cssValues` table of `tokenizeCSS`. -/
def cssValues : List String :=
  ["auto", "none", "inherit", "initial", "unset", "normal", "bold",
   "italic", "underline", "center", "left", "right", "block", "inline",
   "flex", "grid", "absolute", "relative", "fixed", "static", "sticky",
   "hidden", "visible", "transparent", "solid", "dashed", "dotted"]

/-- `/[a-zA-Z0-9_-]/` — CSS word continuation. -/
def isCssWordChar (c : Char) : Bool :=
  (c.isUpper || c.isLower || c.isDigit) || c = '_' || c = '-'

/-- The word classification of `tokenizeCSS` (properties / pseudos /
values / `#`-or-`.`-prefixed / plain text), in the source's order. -/
def cssWordType (word : String) : TokenType :=
  if cssProperties.contains word then .attr
  else if cssPseudos.contains word then .keyword
  else if cssValues.contains word then .keyword
  else if word.startsWith "#" || word.startsWith "." then .tag
  else .text

/-- One step of `tokenizeCSS`'s scan (tokenizer.ts, lines 347–523),
following the source's branch order: comment, string, number-with-unit,
word, operator/punctuation, `#`/`.` selector, whitespace, catch-all. -/
def cssStep (c : Char) (rest : List Char) : TokenType × Nat :=
  if c = '/' && rest.head? = some '*' then
    (.comment, 2 + blockScan (rest.drop 1))
  else if c = '"' || c = '\'' then
    (.string, 1 + strScan c c rest)
  else if c.isDigit then
    let a := ((c :: rest).takeWhile (fun x => x.isDigit || x = '.')).length
    let b := (((c :: rest).drop a).takeWhile (fun x => (x.isUpper || x.isLower) || x = '%')).length
    (.number, a + b)
  else if (c.isUpper || c.isLower) || c = '_' || c = '-' then
    let word := (c :: rest).takeWhile isCssWordChar
    (cssWordType ⟨word⟩, word.length)
  else if c = lbraceChar || c = rbraceChar || c = '(' || c = ')' || c = ';' ||
      c = ':' || c = ',' || c = '.' then
    (.operator, 1)
  else if c = '#' || c = '.' then
    (.tag, 1 + (rest.takeWhile isCssWordChar).length)
  else if isJsWhitespace c then
    (.whitespace, ((c :: rest).takeWhile isJsWhitespace).length)
  else
    (.text, 1)

theorem cssStep_pos (c : Char) (rest : List Char) : 1 ≤ (cssStep c rest).2 := by
  unfold cssStep
  split
  · omega
  · split
    · omega
    · split
      · rename_i hdig
        simp only
        have : ((c :: rest).takeWhile (fun x => x.isDigit || x = '.')).length ≥ 1 := by
          simp [List.takeWhile_cons, hdig]
        omega
      · split
        · rename_i hword
          have hwc : isCssWordChar c = true := by
            simp only [isCssWordChar]
            rcases Bool.or_eq_true_iff.mp hword with h | h
            · rcases Bool.or_eq_true_iff.mp h with h | h <;> simp [h]
            · simp [h]
          simp only
          simp [List.takeWhile_cons, hwc]
        · split
          · omega
          · split
            · omega
            · split
              · rename_i hws
                simp [List.takeWhile_cons, hws]
              · omega

/-- `tokenizeCSS(code, sessionId, localCounterStart)` (tokenizer.ts,
lines 347–523), with the `globalTokenCounter` read made explicit. -/
def tokenizeCSS (code sessionId : String) (g localCounterStart : Nat) : List CodeToken :=
  scanWith cssStep sessionId code.data.length code.data 0 g localCounterStart

theorem tokenizeCSS_roundtrip (code sessionId : String) (g l : Nat) :
    tokensText (tokenizeCSS code sessionId g l) = code := by
  unfold tokensText tokenizeCSS
  have := scanWith_join cssStep cssStep_pos sessionId code.data.length code.data (le_refl _) 0 g l
  rw [this]

/- ### The HTML scanner -/

/-- `[a-zA-Z]`. -/
def isAsciiLetter (c : Char) : Bool := c.isUpper || c.isLower

/-- `[a-zA-Z0-9]` — tag-name continuation in the inner tag regex. -/
def isTagNameChar (c : Char) : Bool := c.isUpper || c.isLower || c.isDigit

/-- `[a-zA-Z-]` — attribute-name characters in the inner tag regex. -/
def isAttrNameChar (c : Char) : Bool := (c.isUpper || c.isLower) || c = '-'

/-- Length of the leftmost match of the outer alternative
`<\/?[a-zA-Z][^>]*>` of `htmlRegex` when it matches at the head of the
input: `<`, an optional `/`, a letter, then (greedily) everything up to
and including the first following `>`.  `none` when the alternative does
not match here. -/
def tagMatchLen (s : List Char) : Option Nat :=
  match s with
  | [] => none
  | c :: rest =>
    if c = '<' then
      match rest with
      | [] => none
      | '/' :: rest2 =>
        match rest2 with
        | [] => none
        | d :: u =>
          if isAsciiLetter d then
            if (u.takeWhile (fun x => x ≠ '>')).length < u.length then
              some (2 + 1 + (u.takeWhile (fun x => x ≠ '>')).length + 1)
            else none
          else none
      | d :: u =>
        if isAsciiLetter d then
          if (u.takeWhile (fun x => x ≠ '>')).length < u.length then
            some (1 + 1 + (u.takeWhile (fun x => x ≠ '>')).length + 1)
          else none
        else none
    else none

theorem tagMatchLen_pos {s : List Char} {n : Nat} (h : tagMatchLen s = some n) : 1 ≤ n := by
  unfold tagMatchLen at h
  repeat' split at h
  all_goals first
    | (simp only [Option.some.injEq] at h; omega)
    | simp_all

/-- Length of the match of the optional attribute-value group
`("[^"]*"|'[^']*'|[^\s>]+)?` of `tagRegex`, starting right after the `=`
(0 when the group matches the empty string). -/
def attrValLen (v : List Char) : Nat :=
  let fallback := (v.takeWhile (fun x => !(isJsWhitespace x) && x ≠ '>')).length
  match v with
  | '"' :: w =>
    let body := w.takeWhile (fun x => x ≠ '"')
    if body.length < w.length then body.length + 2 else fallback
  | '\'' :: w =>
    let body := w.takeWhile (fun x => x ≠ '\'')
    if body.length < w.length then body.length + 2 else fallback
  | _ => fallback

/-- Length of the leftmost-at-head match of the inner alternative
`<\/?[a-zA-Z][a-zA-Z0-9]*` of `tagRegex` (tag-name token). -/
def tagNameLen (s : List Char) : Option Nat :=
  match s with
  | [] => none
  | c :: rest =>
    if c = '<' then
      match rest with
      | [] => none
      | '/' :: rest2 =>
        match rest2 with
        | [] => none
        | d :: u =>
          if isAsciiLetter d then some (2 + 1 + (u.takeWhile isTagNameChar).length)
          else none
      | d :: u =>
        if isAsciiLetter d then some (1 + 1 + (u.takeWhile isTagNameChar).length)
        else none
    else none

theorem tagNameLen_pos {s : List Char} {n : Nat} (h : tagNameLen s = some n) : 1 ≤ n := by
  unfold tagNameLen at h
  repeat' split at h
  all_goals first
    | (simp only [Option.some.injEq] at h; omega)
    | simp_all

/-- The token id with trailing sub-index used for the parts of an HTML
tag: `` `${sessionId}-${type}-${g}-${l}-${startPos}-${subIndex}` ``. -/
def mkId6 (sessionId : String) (ty : TokenType) (g l start subIndex : Nat) : String :=
  mkId5 sessionId ty g l start ++ "-" ++ toString subIndex

/-- The inner `tagRegex` scan of `tokenizeHTML` over one tag's text:
emits tag-name / whitespace / attribute / `>` tokens in regex order,
skipping characters at which no alternative matches (as `exec` does).
`startPos` is the outer match position used in every id. -/
def tagTokensAux (sessionId : String) (startPos : Nat) :
    Nat → List Char → Nat → Nat → Nat → List CodeToken
  | _, [], _, _, _ => []
  | 0, _ :: _, _, _, _ => []
  | fuel + 1, c :: rest, g, l, subIndex =>
    if c = '<' then
      match tagNameLen (c :: rest) with
      | some n =>
        { type := .tag, content := ⟨(c :: rest).take n⟩,
          id := mkId6 sessionId .tag g l startPos subIndex } ::
          tagTokensAux sessionId startPos fuel ((c :: rest).drop n) (g + 1) (l + 1) (subIndex + 1)
      | none => tagTokensAux sessionId startPos fuel rest g l subIndex
    else if isJsWhitespace c then
      let n := ((c :: rest).takeWhile isJsWhitespace).length
      { type := .whitespace, content := ⟨(c :: rest).take n⟩,
        id := mkId6 sessionId .whitespace g l startPos subIndex } ::
        tagTokensAux sessionId startPos fuel ((c :: rest).drop n) (g + 1) (l + 1) (subIndex + 1)
    else if isAttrNameChar c then
      let name := (c :: rest).takeWhile isAttrNameChar
      match (c :: rest).drop name.length with
      | '=' :: v =>
        let n := name.length + 1 + attrValLen v
        { type := .attr, content := ⟨(c :: rest).take n⟩,
          id := mkId6 sessionId .attr g l startPos subIndex } ::
          tagTokensAux sessionId startPos fuel ((c :: rest).drop n) (g + 1) (l + 1) (subIndex + 1)
      | _ => tagTokensAux sessionId startPos fuel rest g l subIndex
    else if c = '>' then
      { type := .tag, content := ">",
        id := mkId6 sessionId .tag g l startPos subIndex } ::
        tagTokensAux sessionId startPos fuel rest (g + 1) (l + 1) (subIndex + 1)
    else
      tagTokensAux sessionId startPos fuel rest g l subIndex

/-- The outer `htmlRegex` scan of `tokenizeHTML` (tokenizer.ts, lines
56–119): tags (further scanned by `tagTokensAux`), whitespace runs and
non-whitespace text runs, skipping characters at which no alternative of
`(<\/?[a-zA-Z][^>]*>)|(\s+)|([^<\s]+)` matches (such as a stray `<`). -/
def tokenizeHTMLAux (sessionId : String) : Nat → List Char → Nat → Nat → Nat → List CodeToken
  | _, [], _, _, _ => []
  | 0, _ :: _, _, _, _ => []
  | fuel + 1, c :: rest, pos, g, l =>
    if c = '<' then
      match tagMatchLen (c :: rest) with
      | some n =>
        let inner := tagTokensAux sessionId pos n ((c :: rest).take n) g l 0
        inner ++ tokenizeHTMLAux sessionId fuel ((c :: rest).drop n) (pos + n)
          (g + inner.length) (l + inner.length)
      | none => tokenizeHTMLAux sessionId fuel rest (pos + 1) g l
    else if isJsWhitespace c then
      let n := ((c :: rest).takeWhile isJsWhitespace).length
      { type := .whitespace, content := ⟨(c :: rest).take n⟩,
        id := mkId5 sessionId .whitespace g l pos } ::
        tokenizeHTMLAux sessionId fuel ((c :: rest).drop n) (pos + n) (g + 1) (l + 1)
    else
      let n := ((c :: rest).takeWhile (fun x => x ≠ '<' && !(isJsWhitespace x))).length
      { type := .text, content := ⟨(c :: rest).take n⟩,
        id := mkId5 sessionId .text g l pos } ::
        tokenizeHTMLAux sessionId fuel ((c :: rest).drop n) (pos + n) (g + 1) (l + 1)

/-- `tokenizeHTML(code, sessionId, localCounterStart)` (tokenizer.ts,
lines 56–119), with the `globalTokenCounter` read made explicit. -/
def tokenizeHTML (code sessionId : String) (g localCounterStart : Nat) : List CodeToken :=
  tokenizeHTMLAux sessionId code.data.length code.data 0 g localCounterStart

/- ### Session ids and the caching `tokenizeCode` entry point -/

/-- Wrap an integer to a 32-bit signed value (JavaScript's `ToInt32`,
performed by `<<` and `&`). -/
def toInt32 (n : Int) : Int := (n + 2 ^ 31) % 2 ^ 32 - 2 ^ 31

/-- One iteration of `getSessionId`'s hash loop:
`hash = (hash << 5) - hash + char; hash = hash & hash`. -/
def hashStep (hash : Int) (c : Char) : Int :=
  toInt32 (toInt32 (hash * 32) - hash + (c.toNat : Int))

/-- The hash accumulated by `getSessionId` over the code's characters. -/
def sessionHash (code : String) : Int := code.data.foldl hashStep 0

/-- One digit of `Number.prototype.toString(36)`: `0`–`9` then `a`–`z`. -/
def digit36 (n : Nat) : Char :=
  if n < 10 then Char.ofNat (48 + n) else Char.ofNat (87 + n)

/-- Digit-bounded base-36 printing (structural recursion on the digit
count so the definition is kernel-evaluable). -/
def toBase36Aux : Nat → Nat → String
  | 0, n => ⟨[digit36 n]⟩
  | fuel + 1, n =>
    if n < 36 then ⟨[digit36 n]⟩ else toBase36Aux fuel (n / 36) ++ ⟨[digit36 (n % 36)]⟩

/-- `Number.prototype.toString(36)` for a natural number; 32 digits are
ample for every value `Math.abs(hash)` can take (the hash is a 32-bit
integer, and 36-digit strings cover up to `36^32`). -/
def toBase36 (n : Nat) : String := toBase36Aux 32 n

/-- `getSessionId(code)` (tokenizer.ts, lines 10–19):
`` `session-${Math.abs(hash).toString(36)}` ``. -/
def getSessionId (code : String) : String :=
  "session-" ++ toBase36 (sessionHash code).natAbs

/-- The mutable module state of tokenizer.ts: the ever-increasing
`globalTokenCounter` and the `tokenCache` map (modelled as an
association list, most recent entry first). -/
structure TokState where
  counter : Nat
  cache : List (String × List CodeToken)
deriving DecidableEq, Repr

/-- `tokenizeCode(code, language)` (tokenizer.ts, lines 32–54): consult
the cache keyed by `` `${language}:${code}` ``, otherwise dispatch on the
language, cache and return; the state threading makes the reads/writes
of `globalTokenCounter` and `tokenCache` explicit. -/
def tokenizeCode (st : TokState) (code language : String) : List CodeToken × TokState :=
  let cacheKey := language ++ ":" ++ code
  match st.cache.find? (fun e => e.1 = cacheKey) with
  | some e => (e.2, st)
  | none =>
    let sessionId := getSessionId code
    let localCounter := 0
    let tokens :=
      if language = "html" then tokenizeHTML code sessionId st.counter localCounter
      else if language = "css" then tokenizeCSS code sessionId st.counter localCounter
      else tokenizeJavaScript code sessionId st.counter localCounter
    (tokens, { counter := st.counter + tokens.length, cache := (cacheKey, tokens) :: st.cache })

/- ### The language detector (`detectLanguage`, tokenizer.ts lines 22–29) -/

/-- JavaScript's `\w` class (word characters), used by `\b` boundaries. -/
def isWordChar (c : Char) : Bool := (c.isUpper || c.isLower || c.isDigit) || c = '_'

/-- Is there a `\b` word boundary between an optional previous character
and a (non-empty) following text starting with `first`? -/
def boundaryBefore (prev : Option Char) (first : Char) : Bool :=
  if isWordChar first then
    match prev with
    | none => true
    | some p => !isWordChar p
  else
    match prev with
    | none => false
    | some p => isWordChar p

/-- Is there a `\b` word boundary between a (non-empty) preceding text
ending with `last` and an optional next character? -/
def boundaryAfter (last : Char) (next : Option Char) : Bool :=
  if isWordChar last then
    match next with
    | none => true
    | some nx => !isWordChar nx
  else
    match next with
    | none => false
    | some nx => isWordChar nx

/-- Does `\b kw \b` match at the very start of `s`, with `prev` the
character immediately before `s` (if any)? -/
def kwMatchHere (kw : List Char) (prev : Option Char) (s : List Char) : Bool :=
  match kw, kw.getLast? with
  | k0 :: _, some kLast =>
    kw.isPrefixOf s && boundaryBefore prev k0 && boundaryAfter kLast ((s.drop kw.length).head?)
  | _, _ => false

/-- `.test` of an alternation `/\b(kw₁|…|kwₙ)\b/`: does some keyword match
with word boundaries somewhere in the text? -/
def kwSearch (kws : List (List Char)) (prev : Option Char) : List Char → Bool
  | [] => kws.any (fun kw => kwMatchHere kw prev [])
  | c :: rest =>
    kws.any (fun kw => kwMatchHere kw prev (c :: rest)) || kwSearch kws (some c) rest

/-- `/<[^>]+>/.test(code)`: somewhere, a `<` followed by at least one
non-`>` character and then a `>`. -/
def hasHtmlTagPattern : List Char → Bool
  | [] => false
  | c :: rest =>
    (c = '<' &&
      ((rest.takeWhile (fun x => x ≠ '>')).length != 0 &&
        (rest.takeWhile (fun x => x ≠ '>')).length < rest.length)) ||
    hasHtmlTagPattern rest

/-- `/\{[^}]*:[^}]*\}/.test(code)`: somewhere, a `{` whose first
following `}` exists with a `:` in between. -/
def hasCssRulePattern : List Char → Bool
  | [] => false
  | c :: rest =>
    (c = lbraceChar &&
      ((rest.takeWhile (fun x => x ≠ rbraceChar)).contains ':' &&
        (rest.takeWhile (fun x => x ≠ rbraceChar)).length < rest.length)) ||
    hasCssRulePattern rest

/-- The keyword list of `/\b(function|const|let|var|=>)\b/`. -/
def jsSignalKeywords : List (List Char) :=
  ["function".data, "const".data, "let".data, "var".data, "=>".data]

/-- The keyword list of `/\b(def|import|class|if __name__)\b/`. -/
def pySignalKeywords : List (List Char) :=
  ["def".data, "import".data, "class".data, "if __name__".data]

/-- `/^\s*[{[]/.test(code.trim())`: after trimming, the text starts with
`{` or `[`. -/
def jsonStartPattern (s : List Char) : Bool :=
  match s.dropWhile isJsWhitespace with
  | c :: _ => c = lbraceChar || c = '['
  | [] => false

/-- `detectLanguage(code)` (tokenizer.ts, lines 22–29): ordered heuristic
regex checks with `"html"` as the fallback. -/
def detectLanguage (code : String) : String :=
  if hasHtmlTagPattern code.data then "html"
  else if kwSearch jsSignalKeywords none code.data then "javascript"
  else if kwSearch pySignalKeywords none code.data then "python"
  else if hasCssRulePattern code.data then "css"
  else if jsonStartPattern code.data then "json"
  else "html"

/- ### The diff engine (`diffAlgorithm.ts`) -/

/-- The `status` union of `DiffToken`: `"added" | "removed" | "unchanged"`. -/
inductive DiffStatus where
  | added
  | removed
  | unchanged
deriving DecidableEq, Repr

/-- `DiffToken` (diffAlgorithm.ts, lines 4–8): a token plus diff
metadata.  `oldIndex` is optional in the source (`oldIndex?`); removed
tokens carry the sentinel `newIndex = -1`, hence `Int`. -/
structure DiffToken where
  type : TokenType
  content : String
  id : String
  status : DiffStatus
  oldIndex : Option Nat
  newIndex : Int
deriving DecidableEq, Repr

/-- `createContentSignature(token)`: `` `${token.type}:${token.content}` ``. -/
def createContentSignature (token : CodeToken) : String :=
  tokenTypeName token.type ++ ":" ++ token.content

/-- First pass of `findLongestCommonSubsequence` (diffAlgorithm.ts,
lines 27–53): sequential matching from the start, advancing only the new
index on a mismatch.  `fuel` bounds the loop structurally; the new index
grows by one per iteration, so `fuel = newTokens.length` suffices. -/
def firstPass (oldTokens newTokens : List CodeToken) : Nat → Nat → Nat → List (Nat × Nat)
  | 0, _, _ => []
  | fuel + 1, oldIdx, newIdx =>
    if oldIdx < oldTokens.length && newIdx < newTokens.length then
      if createContentSignature (oldTokens.getD oldIdx dummyToken) =
          createContentSignature (newTokens.getD newIdx dummyToken) then
        (oldIdx, newIdx) :: firstPass oldTokens newTokens fuel (oldIdx + 1) (newIdx + 1)
      else
        firstPass oldTokens newTokens fuel oldIdx (newIdx + 1)
    else []

/-- The inner candidate scan of the second pass (diffAlgorithm.ts, lines
62–116): over all old indices, skip used ones, require an exact or
whitespace-to-whitespace signature match that maintains order relative to
`result`, score by proximity (in exact rational arithmetic) plus an
exact-match bonus, and keep the best strictly-improving candidate.
`(-1, -1)` is the source's initial `(bestMatch, bestScore)`. -/
def bestMatchStep (oldTokens newTokens : List CodeToken) (result : List (Nat × Nat))
    (newIndex : Nat) (best : Int × ℚ) (oldIndex : Nat) : Int × ℚ :=
  if result.any (fun r => r.1 = oldIndex) then best
  else
    let oldToken := oldTokens.getD oldIndex dummyToken
    let newToken := newTokens.getD newIndex dummyToken
    if createContentSignature oldToken = createContentSignature newToken ∨
        (oldToken.type = .whitespace ∧ newToken.type = .whitespace) then
      if result.all (fun em =>
          !(decide (em.2 < newIndex) && decide (em.1 > oldIndex)) &&
          !(decide (em.2 > newIndex) && decide (em.1 < oldIndex))) then
        let expectedOldPosition : ℚ :=
          ((newIndex : ℚ) / (newTokens.length : ℚ)) * (oldTokens.length : ℚ)
        let distance : ℚ := |(oldIndex : ℚ) - expectedOldPosition|
        let maxDistance : ℚ := max (oldTokens.length : ℚ) (newTokens.length : ℚ)
        let proximityScore : ℚ := 1 - distance / maxDistance
        let contentBonus : ℚ :=
          if createContentSignature oldToken = createContentSignature newToken
          then 1 / 5 else 0
        let score := proximityScore + contentBonus
        if score > best.2 then ((oldIndex : Int), score) else best
      else best
    else best

def bestMatchFor (oldTokens newTokens : List CodeToken) (result : List (Nat × Nat))
    (newIndex : Nat) : Int × ℚ :=
  (List.range oldTokens.length).foldl
    (bestMatchStep oldTokens newTokens result newIndex)
    ((-1 : Int), (-1 : ℚ))

/-- Second pass of `findLongestCommonSubsequence` (diffAlgorithm.ts,
lines 56–123): for every not-yet-matched new index, accept the best
candidate when its score exceeds the `0.3` threshold.  `fuel` bounds the
loop structurally (`newTokens.length` suffices). -/
def secondPassFrom (oldTokens newTokens : List CodeToken) :
    Nat → List (Nat × Nat) → Nat → List (Nat × Nat)
  | 0, result, _ => result
  | fuel + 1, result, newIndex =>
    if newIndex < newTokens.length then
      if result.any (fun r => r.2 = newIndex) then
        secondPassFrom oldTokens newTokens fuel result (newIndex + 1)
      else
        let best := bestMatchFor oldTokens newTokens result newIndex
        if best.1 ≠ -1 ∧ best.2 > 3 / 10 then
          secondPassFrom oldTokens newTokens fuel (result ++ [(best.1.toNat, newIndex)])
            (newIndex + 1)
        else
          secondPassFrom oldTokens newTokens fuel result (newIndex + 1)
    else result

/-- `result.sort((a, b) => a.newIndex - b.newIndex)`: JavaScript's sort is
stable, modelled by a stable insertion sort on the new index. -/
def sortByNewIndex (result : List (Nat × Nat)) : List (Nat × Nat) :=
  result.insertionSort (fun a b => a.2 ≤ b.2)

/-- `findLongestCommonSubsequence(oldTokens, newTokens)` (diffAlgorithm.ts,
lines 20–129): the two matching passes followed by the sort by new index. -/
def findLongestCommonSubsequence (oldTokens newTokens : List CodeToken) :
    List (Nat × Nat) :=
  sortByNewIndex
    (secondPassFrom oldTokens newTokens newTokens.length
      (firstPass oldTokens newTokens newTokens.length 0 0) 0)

/-- The body of `computeDiff`'s per-new-token loop (diffAlgorithm.ts,
lines 163–185): matched new tokens become `unchanged` and inherit the
matched **old** token's id; unmatched ones become `added`. -/
def diffNewToken (oldTokens newTokens : List CodeToken) (lcs : List (Nat × Nat))
    (newIndex : Nat) : DiffToken :=
  let newToken := newTokens.getD newIndex dummyToken
  match lcs.find? (fun m => m.2 = newIndex) with
  | some m =>
    { type := newToken.type, content := newToken.content,
      id := (oldTokens.getD m.1 dummyToken).id,
      status := .unchanged, oldIndex := some m.1, newIndex := (newIndex : Int) }
  | none =>
    { type := newToken.type, content := newToken.content, id := newToken.id,
      status := .added, oldIndex := none, newIndex := (newIndex : Int) }

/-- The body of `computeDiff`'s removed-token loop (diffAlgorithm.ts,
lines 188–199). -/
def diffRemovedToken (oldTokens : List CodeToken) (oldIndex : Nat) : DiffToken :=
  let oldToken := oldTokens.getD oldIndex dummyToken
  { type := oldToken.type, content := oldToken.content, id := oldToken.id,
    status := .removed, oldIndex := some oldIndex, newIndex := -1 }

/-- `computeDiff(oldTokens, newTokens)` (diffAlgorithm.ts, lines 134–202). -/
def computeDiff (oldTokens newTokens : List CodeToken) : List DiffToken :=
  if oldTokens.length = 0 then
    newTokens.mapIdx (fun index token =>
      { type := token.type, content := token.content, id := token.id,
        status := .added, oldIndex := none, newIndex := (index : Int) })
  else if newTokens.length = 0 then
    oldTokens.mapIdx (fun index token =>
      { type := token.type, content := token.content, id := token.id,
        status := .removed, oldIndex := some index, newIndex := -1 })
  else
    let lcs := findLongestCommonSubsequence oldTokens newTokens
    let mainPart := (List.range newTokens.length).map (diffNewToken oldTokens newTokens lcs)
    let removedPart :=
      ((List.range oldTokens.length).filter
          (fun oldIndex => !(lcs.any (fun m => m.1 = oldIndex)))).map
        (diffRemovedToken oldTokens)
    mainPart ++ removedPart

/- ### Rendering utilities (`rendering.ts`) -/

/-- The `animationPhase` union of `RenderToken`:
`"entering" | "stable" | "exiting"`. -/
inductive RenderAnimationPhase where
  | entering
  | stable
  | exiting
deriving DecidableEq, Repr

/-- `RenderToken` (rendering.ts, lines 8–11): a `DiffToken` plus the two
optional rendering annotations. -/
structure RenderToken where
  type : TokenType
  content : String
  id : String
  status : DiffStatus
  oldIndex : Option Nat
  newIndex : Int
  isManuallyHighlighted : Option Bool
  animationPhase : Option RenderAnimationPhase
deriving DecidableEq, Repr

/-- `HighlightRange` (types.ts): character-offset ranges over the current
source; `stop` models the source's `end` field (`end` is reserved in
Lean), `type` its `"new" | "changed" | "emphasis"` tag. -/
structure HighlightRange where
  start : Nat
  stop : Nat
  type : String
deriving DecidableEq, Repr

/-- The `tokens.map` closure of `applyManualHighlights` with the mutable
`charIndex` cursor made an explicit argument. -/
def applyManualHighlightsAux (highlights : List HighlightRange) :
    List RenderToken → Nat → List RenderToken
  | [], _ => []
  | t :: ts, charIndex =>
    let tokenStart := charIndex
    let tokenEnd := charIndex + t.content.length
    let isHighlighted := highlights.any
      (fun h => decide (tokenStart < h.stop) && decide (tokenEnd > h.start))
    { t with isManuallyHighlighted := some isHighlighted } ::
      applyManualHighlightsAux highlights ts tokenEnd

/-- `applyManualHighlights(tokens, highlights)` (rendering.ts, lines
184–206): flag each token that overlaps any supplied range, tracking a
running character cursor. -/
def applyManualHighlights (tokens : List RenderToken)
    (highlights : List HighlightRange) : List RenderToken :=
  applyManualHighlightsAux highlights tokens 0

/- ### Animation timings and the phase scheduler -/

/-- The shape of the `ANIMATION_TIMINGS` configuration object
(types.ts): phase durations in milliseconds, per-element durations and
stagger delay in seconds, easing names. -/
structure AnimationTimings where
  POSITIONING_PHASE_DURATION : Int
  PAUSE_BETWEEN_PHASES : Int
  ADDING_PHASE_DURATION : Int
  EXISTING_ELEMENT_DURATION : ℚ
  NEW_ELEMENT_DURATION : ℚ
  NEW_ELEMENT_STAGGER_DELAY : ℚ
  EXISTING_ELEMENT_EASING : String
  NEW_ELEMENT_EASING : String
deriving DecidableEq, Repr

/-- `ANIMATION_TIMINGS` (AnimatedCodeDisplay/types.ts, the educational
pacing constants). -/
def ANIMATION_TIMINGS : AnimationTimings :=
  { POSITIONING_PHASE_DURATION := 1200
    PAUSE_BETWEEN_PHASES := 500
    ADDING_PHASE_DURATION := 4000
    EXISTING_ELEMENT_DURATION := 0.8
    NEW_ELEMENT_DURATION := 1.2
    NEW_ELEMENT_STAGGER_DELAY := 0.15
    EXISTING_ELEMENT_EASING := "easeInOut"
    NEW_ELEMENT_EASING := "easeOut" }

/-- One phase record of `createEducationalAnimationPhases`. -/
structure AnimationPhaseSpec where
  start : Int
  duration : Int
  description : String
deriving DecidableEq, Repr

/-- The record returned by `createEducationalAnimationPhases`. -/
structure EducationalPhases where
  positioningPhase : AnimationPhaseSpec
  pausePhase : AnimationPhaseSpec
  addingPhase : AnimationPhaseSpec
  totalDuration : Int
  getStaggerDelay : Nat → ℚ

/-- `createEducationalAnimationPhases()` (rendering.ts, lines 279–317). -/
def createEducationalAnimationPhases : EducationalPhases :=
  { positioningPhase :=
      { start := 0
        duration := ANIMATION_TIMINGS.POSITIONING_PHASE_DURATION
        description := "Existing code elements move to their new positions" }
    pausePhase :=
      { start := ANIMATION_TIMINGS.POSITIONING_PHASE_DURATION
        duration := ANIMATION_TIMINGS.PAUSE_BETWEEN_PHASES
        description := "Pause to observe the new layout" }
    addingPhase :=
      { start := ANIMATION_TIMINGS.POSITIONING_PHASE_DURATION +
          ANIMATION_TIMINGS.PAUSE_BETWEEN_PHASES
        duration := ANIMATION_TIMINGS.ADDING_PHASE_DURATION
        description := "New code elements appear one by one" }
    totalDuration := ANIMATION_TIMINGS.POSITIONING_PHASE_DURATION +
      ANIMATION_TIMINGS.PAUSE_BETWEEN_PHASES + ANIMATION_TIMINGS.ADDING_PHASE_DURATION
    getStaggerDelay := fun elementIndex =>
      (elementIndex : ℚ) * ANIMATION_TIMINGS.NEW_ELEMENT_STAGGER_DELAY }

/-- The four values `getCurrentAnimationPhase` can return. -/
inductive SchedulerPhase where
  | positioning
  | pause
  | adding
  | complete
deriving DecidableEq, Repr

/-- `getCurrentAnimationPhase(currentTime, animationStart)`
(rendering.ts, lines 322–341): classify the elapsed time with strict `<`
comparisons against the cumulative phase durations. -/
def getCurrentAnimationPhase (currentTime animationStart : Int) : SchedulerPhase :=
  let elapsed := currentTime - animationStart
  let phases := createEducationalAnimationPhases
  if elapsed < phases.positioningPhase.duration then .positioning
  else if elapsed < phases.positioningPhase.duration + phases.pausePhase.duration then .pause
  else if elapsed < phases.totalDuration then .adding
  else .complete

/-- Position of a phase in the scheduler's one-directional order
(used to state monotonicity). -/
def phaseRank : SchedulerPhase → Nat
  | .positioning => 0
  | .pause => 1
  | .adding => 2
  | .complete => 3

/- ### The display component (`AnimatedCodeDisplay_new.tsx`) -/

/-- The `incompatibleLanguages` pair list of `shouldIgnorePreviousCode`
(AnimatedCodeDisplay_new.tsx, lines 59–68). -/
def incompatibleLanguages : List (String × String) :=
  [("html", "javascript"), ("html", "typescript"), ("html", "python"),
   ("javascript", "html"), ("typescript", "html"), ("python", "html"),
   ("python", "javascript"), ("javascript", "python")]

/-- `shouldIgnorePreviousCode` (AnimatedCodeDisplay_new.tsx, lines
52–75): with a previous code present, detect both languages and test
membership of the unordered pair in the incompatible list. -/
def shouldIgnorePreviousCode (currentCode previousCode : String) : Bool :=
  if previousCode = "" then false
  else
    let currentLang := detectLanguage currentCode
    let previousLang := detectLanguage previousCode
    incompatibleLanguages.any (fun p =>
      (currentLang = p.1 && previousLang = p.2) ||
      (currentLang = p.2 && previousLang = p.1))

/-- The `diffResult` memo of the component (AnimatedCodeDisplay_new.tsx,
lines 90–122): all-unchanged static display when there is no previous
code, when the language changed incompatibly, or when not animating;
otherwise the computed diff. -/
def diffResultOf (currentCode previousCode : String) (isAnimating : Bool)
    (currentTokens previousTokens : List CodeToken) : List DiffToken :=
  if previousCode = "" || shouldIgnorePreviousCode currentCode previousCode then
    currentTokens.mapIdx (fun index token =>
      { type := token.type, content := token.content, id := token.id,
        status := .unchanged, oldIndex := none, newIndex := (index : Int) })
  else if !isAnimating then
    currentTokens.mapIdx (fun index token =>
      { type := token.type, content := token.content, id := token.id,
        status := .unchanged, oldIndex := none, newIndex := (index : Int) })
  else
    computeDiff previousTokens currentTokens

/-- The component's tokenize-then-diff pipeline (AnimatedCodeDisplay_new.tsx,
lines 27–122): the `language` prop is received but never read — the
detected language of `currentCode` is used for both tokenizations. -/
def componentRun (st : TokState) (currentCode previousCode language : String)
    (isAnimating : Bool) : List DiffToken × TokState :=
  let detectedLanguage := detectLanguage currentCode
  let r1 := tokenizeCode st currentCode detectedLanguage
  let r2 := tokenizeCode r1.2 previousCode detectedLanguage
  (diffResultOf currentCode previousCode isAnimating r1.1 r2.1, r2.2)

/-- The delay of the single completion timer of the component's
animation effect (AnimatedCodeDisplay_new.tsx, lines 138–157):
`POSITIONING_PHASE_DURATION + PAUSE_BETWEEN_PHASES + ADDING_PHASE_DURATION`
milliseconds, after which `onAnimationComplete` fires. -/
def completionTimerDelay : Int :=
  ANIMATION_TIMINGS.POSITIONING_PHASE_DURATION +
    ANIMATION_TIMINGS.PAUSE_BETWEEN_PHASES +
    ANIMATION_TIMINGS.ADDING_PHASE_DURATION

/-- When the reveal animation of an added token at (line) index `index`
finishes, in seconds from animation start: its `TokenComponent`
transition delay `(POSITIONING + PAUSE)/1000 + index * STAGGER` plus its
duration `NEW_ELEMENT_DURATION` (AnimatedCodeDisplay_new.tsx, lines
332–358). -/
def addedTokenRevealEndSec (index : Nat) : ℚ :=
  ((ANIMATION_TIMINGS.POSITIONING_PHASE_DURATION +
      ANIMATION_TIMINGS.PAUSE_BETWEEN_PHASES : Int) : ℚ) / 1000 +
    (index : ℚ) * ANIMATION_TIMINGS.NEW_ELEMENT_STAGGER_DELAY +
    ANIMATION_TIMINGS.NEW_ELEMENT_DURATION

/- ### Helpers for theorem statements -/

/-- Out-of-range placeholder for `DiffToken` lists. -/
def dummyDiffToken : DiffToken :=
  { type := .text, content := "", id := "", status := .added, oldIndex := none, newIndex := 0 }

/-- Out-of-range placeholder for `RenderToken` lists. -/
def dummyRenderToken : RenderToken :=
  { type := .text, content := "", id := "", status := .added, oldIndex := none,
    newIndex := 0, isManuallyHighlighted := none, animationPhase := none }

/-- Character offset at which token `i` starts: the sum of the content
lengths of all preceding tokens. -/
def prefixLen (tokens : List RenderToken) (i : Nat) : Nat :=
  ((tokens.take i).map (fun t => t.content.length)).sum

/- ### C1 -/

/-- C1 (counterexample): the round-trip fails for the HTML scanner — on
the source `"<"` no alternative of the scanning regex matches, the stray
`<` is skipped, and `tokenizeCode` returns no tokens at all, so the
concatenated contents are `""`, not `"<"`. -/
theorem tokenizeCode_html_roundtrip_fails :
    tokensText (tokenizeCode ⟨0, []⟩ "<" "html").1 ≠ "<" := by decide

/-- C1 (amended): lossless round-trip holds for every source string for
the JavaScript and CSS scanners (hence for every language tag other than
`"html"`, all of which dispatch to one of these two); the HTML scanner
drops characters its regex alternatives skip, so it is excluded. -/
theorem tokenize_roundtrip_except_html :
    (∀ code sessionId g l, tokensText (tokenizeJavaScript code sessionId g l) = code) ∧
    (∀ code sessionId g l, tokensText (tokenizeCSS code sessionId g l) = code) ∧
    (∀ (st : TokState) code language, st.cache = [] → language ≠ "html" →
      tokensText (tokenizeCode st code language).1 = code) := by
  refine ⟨tokenizeJavaScript_roundtrip, tokenizeCSS_roundtrip, ?_⟩
  intro st code language hcache hlang
  unfold tokenizeCode
  rw [hcache]
  simp only [List.find?_nil]
  simp only [hlang, if_false]
  split
  · exact tokenizeCSS_roundtrip ..
  · exact tokenizeJavaScript_roundtrip ..

/-- C1 (witness for the amended theorem). -/
theorem tokenize_roundtrip_except_html_witness :
    tokensText (tokenizeCode ⟨5, []⟩ "a{b:c}" "css").1 = "a{b:c}" :=
  tokenize_roundtrip_except_html.2.2 ⟨5, []⟩ "a{b:c}" "css" rfl (by decide)

/- ### C4 -/

/-- C4 (counterexample): the ids returned by `tokenizeCode` depend on how
many tokenizations preceded the calls — tokenizing `"a"` in a fresh state
and tokenizing `"a"` after one prior tokenization of `"b"` yield
different ids (the `globalTokenCounter` value is baked into each id). -/
theorem tokenizeCode_ids_depend_on_counter :
    (tokenizeCode ⟨0, []⟩ "a" "javascript").1 ≠
      (tokenizeCode (tokenizeCode ⟨0, []⟩ "b" "javascript").2 "a" "javascript").1 := by
  decide

/-- C4 (amended): two successive calls of `tokenizeCode` with the same
source and language do return element-wise identical token sequences
(the cache guarantees it), whatever the starting state. -/
theorem tokenizeCode_successive_calls_stable (st : TokState) (code language : String) :
    (tokenizeCode (tokenizeCode st code language).2 code language).1 =
      (tokenizeCode st code language).1 := by
  unfold tokenizeCode
  cases h : st.cache.find? (fun e => e.1 = language ++ ":" ++ code) with
  | some e => simp [h]
  | none =>
    simp only [h]
    rw [List.find?_cons_of_pos _ (by simp)]

/- ### C10 -/

/-- C10: the `language` prop never influences the component's output —
`detectLanguage` returns a non-empty tag for every input (falling back to
`"html"`), the component tokenizes both codes with
`detectLanguage(currentCode)`, and two runs differing only in the
supplied `language` prop produce identical token sequences, diff and
state. -/
theorem language_prop_no_influence :
    (∀ code : String, detectLanguage code ≠ "") ∧
    (∀ (st : TokState) (currentCode previousCode l₁ l₂ : String) (isAnimating : Bool),
      componentRun st currentCode previousCode l₁ isAnimating =
        componentRun st currentCode previousCode l₂ isAnimating) := by
  constructor
  · intro code
    unfold detectLanguage
    split
    · decide
    · split
      · decide
      · split
        · decide
        · split
          · decide
          · split
            · decide
            · decide
  · intro st currentCode previousCode l₁ l₂ isAnimating
    rfl

/- ### C5 -/

/-- C5: whenever the detected languages of the previous and current code
form an incompatible pair (`shouldIgnorePreviousCode` is true), the
component's diff result marks every current token `unchanged` with
`newIndex` equal to its position — for either value of `isAnimating`. -/
theorem incompatible_languages_bypass
    (currentCode previousCode : String) (isAnimating : Bool)
    (currentTokens previousTokens : List CodeToken)
    (h : shouldIgnorePreviousCode currentCode previousCode = true) :
    (diffResultOf currentCode previousCode isAnimating currentTokens previousTokens).length =
      currentTokens.length ∧
    ∀ i, i < currentTokens.length →
      (diffResultOf currentCode previousCode isAnimating currentTokens previousTokens).getD
          i dummyDiffToken =
        { type := (currentTokens.getD i dummyToken).type,
          content := (currentTokens.getD i dummyToken).content,
          id := (currentTokens.getD i dummyToken).id,
          status := .unchanged, oldIndex := none, newIndex := (i : Int) } := by
  unfold diffResultOf
  rw [h]
  simp only [Bool.or_true, if_true]
  constructor
  · simp
  · intro i hi
    rw [List.getD_eq_getElem?_getD, List.getD_eq_getElem?_getD]
    rw [List.getElem?_eq_getElem (by simpa using hi), List.getElem?_eq_getElem hi]
    simp [List.getElem_mapIdx]

/-- C5 (witness): `"let x"` detects as javascript, `"<p>hi</p>"` as html
— an incompatible pair — and the single current token comes back
unchanged at position 0 whichever way `isAnimating` is set. -/
theorem incompatible_languages_bypass_witness :
    (diffResultOf "let x" "<p>hi</p>" true [⟨.text, "a", "id-a"⟩] []).getD 0 dummyDiffToken =
      { type := TokenType.text, content := "a", id := "id-a",
        status := .unchanged, oldIndex := none, newIndex := 0 } :=
  (incompatible_languages_bypass "let x" "<p>hi</p>" true [⟨.text, "a", "id-a"⟩] []
    (by decide)).2 0 (by decide)

/- ### C7 -/

/-- C7: for every non-negative elapsed time the scheduler phase is
characterised by strict `<` comparisons against the configured cumulative
durations, and the phase rank is monotone in the current time. -/
theorem getCurrentAnimationPhase_spec :
    (∀ currentTime animationStart : Int, 0 ≤ currentTime - animationStart →
      ((getCurrentAnimationPhase currentTime animationStart = .positioning ↔
          currentTime - animationStart < ANIMATION_TIMINGS.POSITIONING_PHASE_DURATION) ∧
       (getCurrentAnimationPhase currentTime animationStart = .pause ↔
          ANIMATION_TIMINGS.POSITIONING_PHASE_DURATION ≤ currentTime - animationStart ∧
          currentTime - animationStart < ANIMATION_TIMINGS.POSITIONING_PHASE_DURATION +
            ANIMATION_TIMINGS.PAUSE_BETWEEN_PHASES) ∧
       (getCurrentAnimationPhase currentTime animationStart = .adding ↔
          ANIMATION_TIMINGS.POSITIONING_PHASE_DURATION +
            ANIMATION_TIMINGS.PAUSE_BETWEEN_PHASES ≤ currentTime - animationStart ∧
          currentTime - animationStart < ANIMATION_TIMINGS.POSITIONING_PHASE_DURATION +
            ANIMATION_TIMINGS.PAUSE_BETWEEN_PHASES + ANIMATION_TIMINGS.ADDING_PHASE_DURATION) ∧
       (getCurrentAnimationPhase currentTime animationStart = .complete ↔
          ANIMATION_TIMINGS.POSITIONING_PHASE_DURATION +
            ANIMATION_TIMINGS.PAUSE_BETWEEN_PHASES + ANIMATION_TIMINGS.ADDING_PHASE_DURATION ≤
            currentTime - animationStart))) ∧
    (∀ (animationStart t t' : Int), t ≤ t' →
      phaseRank (getCurrentAnimationPhase t animationStart) ≤
        phaseRank (getCurrentAnimationPhase t' animationStart)) := by
  constructor
  · intro t s h
    unfold getCurrentAnimationPhase createEducationalAnimationPhases ANIMATION_TIMINGS
    simp only
    split_ifs with h1 h2 h3 <;>
      refine ⟨?_, ?_, ?_, ?_⟩ <;> simp_all <;> omega
  · intro s t t' h
    unfold getCurrentAnimationPhase createEducationalAnimationPhases ANIMATION_TIMINGS
    simp only
    split_ifs <;> simp [phaseRank] <;> omega

/-- C7 (witness): at 3000 ms elapsed the scheduler is in the `adding`
phase (1700 ≤ 3000 < 5700). -/
theorem getCurrentAnimationPhase_spec_witness :
    getCurrentAnimationPhase 3000 0 = SchedulerPhase.adding :=
  ((getCurrentAnimationPhase_spec.1 3000 0 (by decide)).2.2.1).mpr (by decide)

/- ### C8 -/

/-- Modelled from the claim's formula (the bound the spec demands of the
completion time, in milliseconds):
`max(D_pos + D_pause + D_add, D_pos + D_pause + NEW_ELEMENT_DURATION + maxAddedCount × D_stagger)`
with the per-element second-valued constants converted to milliseconds. -/
def claimedMinimumRunDurationMs (maxAddedCount : Nat) : ℚ :=
  max
    ((ANIMATION_TIMINGS.POSITIONING_PHASE_DURATION + ANIMATION_TIMINGS.PAUSE_BETWEEN_PHASES +
        ANIMATION_TIMINGS.ADDING_PHASE_DURATION : Int) : ℚ)
    (((ANIMATION_TIMINGS.POSITIONING_PHASE_DURATION +
        ANIMATION_TIMINGS.PAUSE_BETWEEN_PHASES : Int) : ℚ) +
      ANIMATION_TIMINGS.NEW_ELEMENT_DURATION * 1000 +
      (maxAddedCount : ℚ) * (ANIMATION_TIMINGS.NEW_ELEMENT_STAGGER_DELAY * 1000))

/-- C8 (counterexample): the completion timer always fires after
`1200 + 500 + 4000 = 5700` ms, with no dependence on the added-token
count; with 27 added tokens the claimed lower bound is 6950 ms, and the
27th staggered token's own reveal in fact ends at 6.8 s > 5.7 s — the
completion signal precedes it. -/
theorem completionTimer_below_claimed_bound :
    completionTimerDelay = 5700 ∧
    ¬((completionTimerDelay : ℚ) ≥ claimedMinimumRunDurationMs 27) ∧
    (completionTimerDelay : ℚ) / 1000 < addedTokenRevealEndSec 26 := by
  refine ⟨rfl, ?_, ?_⟩
  · unfold claimedMinimumRunDurationMs completionTimerDelay ANIMATION_TIMINGS
    simp only
    norm_num
  · unfold addedTokenRevealEndSec completionTimerDelay ANIMATION_TIMINGS
    simp only
    norm_num

/-- C8 (amended): the completion signal fires at the fixed delay
`D_pos + D_pause + D_add` (5700 ms), independent of the added-token
count; this meets the claimed bound exactly when at most 18 tokens are
added, and falls short of it — the last staggered reveal is still
running — whenever 19 or more are. -/
theorem completionTimer_bound_iff_few_added (maxAddedCount : Nat) :
    completionTimerDelay = ANIMATION_TIMINGS.POSITIONING_PHASE_DURATION +
      ANIMATION_TIMINGS.PAUSE_BETWEEN_PHASES + ANIMATION_TIMINGS.ADDING_PHASE_DURATION ∧
    (maxAddedCount ≤ 18 →
      (completionTimerDelay : ℚ) ≥ claimedMinimumRunDurationMs maxAddedCount) ∧
    (19 ≤ maxAddedCount →
      (completionTimerDelay : ℚ) < claimedMinimumRunDurationMs maxAddedCount) := by
  refine ⟨rfl, ?_, ?_⟩
  · intro h
    unfold claimedMinimumRunDurationMs completionTimerDelay ANIMATION_TIMINGS
    simp only
    rw [ge_iff_le, max_le_iff]
    constructor
    · norm_num
    · have : (maxAddedCount : ℚ) ≤ 18 := by exact_mod_cast h
      nlinarith
  · intro h
    unfold claimedMinimumRunDurationMs completionTimerDelay ANIMATION_TIMINGS
    simp only
    rw [lt_max_iff]
    right
    have : (19 : ℚ) ≤ (maxAddedCount : ℚ) := by exact_mod_cast h
    nlinarith

/-- C8 (witness for the amended theorem): with 5 added tokens the fixed
5700 ms delay does meet the claimed bound. -/
theorem completionTimer_bound_iff_few_added_witness :
    (completionTimerDelay : ℚ) ≥ claimedMinimumRunDurationMs 5 :=
  (completionTimer_bound_iff_few_added 5).2.1 (by decide)

/- ### C6 -/

theorem applyManualHighlightsAux_getD (highlights : List HighlightRange) :
    ∀ (ts : List RenderToken) (c i : Nat), i < ts.length →
      (applyManualHighlightsAux highlights ts c).getD i dummyRenderToken =
        { ts.getD i dummyRenderToken with
          isManuallyHighlighted := some (highlights.any (fun r =>
            decide (c + prefixLen ts i < r.stop) &&
            decide (c + prefixLen ts i + (ts.getD i dummyRenderToken).content.length >
              r.start))) } := by
  intro ts
  induction ts with
  | nil => intro c i h; simp at h
  | cons t ts ih =>
    intro c i h
    cases i with
    | zero =>
      simp [applyManualHighlightsAux, prefixLen]
    | succ i =>
      simp only [applyManualHighlightsAux]
      rw [List.getD_cons_succ, List.getD_cons_succ]
      rw [ih (c + t.content.length) i (by simpa using h)]
      have hp : prefixLen (t :: ts) (i + 1) = t.content.length + prefixLen ts i := by
        simp [prefixLen]
      rw [hp]
      simp only [Nat.add_assoc]

theorem applyManualHighlightsAux_length (highlights : List HighlightRange) :
    ∀ (ts : List RenderToken) (c : Nat),
      (applyManualHighlightsAux highlights ts c).length = ts.length := by
  intro ts
  induction ts with
  | nil => intro c; simp [applyManualHighlightsAux]
  | cons t ts ih =>
    intro c
    simp [applyManualHighlightsAux, ih]

/-- C6: a token is flagged by `applyManualHighlights` exactly when, with
`tokenStart` the sum of the preceding content lengths and
`tokenEnd = tokenStart + len(content)`, some supplied range satisfies
`tokenStart < range.end ∧ tokenEnd > range.start`; tokens are returned in
order with only the flag changed, and the cursor advances by the content
length regardless of the flag.  The last conjunct is the claim's concrete
instance: for the three 2-character tokens `"ab"`,`"cd"`,`"ef"` and the
single range `[1,3)`, tokens 0 and 1 are flagged and token 2 is not. -/
theorem applyManualHighlights_spec :
    (∀ (tokens : List RenderToken) (highlights : List HighlightRange),
      (applyManualHighlights tokens highlights).length = tokens.length ∧
      ∀ i, i < tokens.length →
        (applyManualHighlights tokens highlights).getD i dummyRenderToken =
          { tokens.getD i dummyRenderToken with
            isManuallyHighlighted := some (highlights.any (fun r =>
              decide (prefixLen tokens i < r.stop) &&
              decide (prefixLen tokens i +
                (tokens.getD i dummyRenderToken).content.length > r.start))) }) ∧
    applyManualHighlights
        [⟨.text, "ab", "t0", .unchanged, none, 0, none, none⟩,
         ⟨.text, "cd", "t1", .unchanged, none, 1, none, none⟩,
         ⟨.text, "ef", "t2", .unchanged, none, 2, none, none⟩]
        [⟨1, 3, "new"⟩] =
      [⟨.text, "ab", "t0", .unchanged, none, 0, some true, none⟩,
       ⟨.text, "cd", "t1", .unchanged, none, 1, some true, none⟩,
       ⟨.text, "ef", "t2", .unchanged, none, 2, some false, none⟩] := by
  constructor
  · intro tokens highlights
    constructor
    · exact applyManualHighlightsAux_length highlights tokens 0
    · intro i hi
      have := applyManualHighlightsAux_getD highlights tokens 0 i hi
      simpa [applyManualHighlights] using this
  · decide

/-- C6 (witness): the characterisation applied at token 1 of the
claim's concrete example — flagged, because its offsets `[2,4)` overlap
the range `[1,3)`. -/
theorem applyManualHighlights_spec_witness :
    (applyManualHighlights
        [⟨.text, "ab", "t0", .unchanged, none, 0, none, none⟩,
         ⟨.text, "cd", "t1", .unchanged, none, 1, none, none⟩,
         ⟨.text, "ef", "t2", .unchanged, none, 2, none, none⟩]
        [⟨1, 3, "new"⟩]).getD 1 dummyRenderToken =
      ⟨.text, "cd", "t1", .unchanged, none, 1, some true, none⟩ := by
  have h := (applyManualHighlights_spec.1
    [⟨.text, "ab", "t0", .unchanged, none, 0, none, none⟩,
     ⟨.text, "cd", "t1", .unchanged, none, 1, none, none⟩,
     ⟨.text, "ef", "t2", .unchanged, none, 2, none, none⟩]
    [⟨1, 3, "new"⟩]).2 1 (by decide)
  rw [h]
  decide

/- ### Invariants of the LCS matching (toward C2/C3) -/

/-- The match-list invariant: distinct old indices, distinct new indices,
all in range. -/
def lcsInv (oldLen newLen : Nat) (l : List (Nat × Nat)) : Prop :=
  (l.map Prod.fst).Nodup ∧ (l.map Prod.snd).Nodup ∧
    ∀ p ∈ l, p.1 < oldLen ∧ p.2 < newLen

theorem firstPass_bounds (oldTokens newTokens : List CodeToken) :
    ∀ fuel a b, ∀ p ∈ firstPass oldTokens newTokens fuel a b,
      a ≤ p.1 ∧ p.1 < oldTokens.length ∧ b ≤ p.2 ∧ p.2 < newTokens.length := by
  intro fuel
  induction fuel with
  | zero => intro a b p hp; simp [firstPass] at hp
  | succ fuel ih =>
    intro a b p hp
    rw [firstPass] at hp
    split at hp
    · rename_i hcond
      rw [Bool.and_eq_true, decide_eq_true_eq, decide_eq_true_eq] at hcond
      split at hp
      · rcases List.mem_cons.mp hp with rfl | hmem
        · exact ⟨le_refl _, hcond.1, le_refl _, hcond.2⟩
        · have := ih (a + 1) (b + 1) p hmem
          omega
      · have := ih a (b + 1) p hp
        omega
    · simp at hp

theorem firstPass_nodup (oldTokens newTokens : List CodeToken) :
    ∀ fuel a b, ((firstPass oldTokens newTokens fuel a b).map Prod.fst).Nodup ∧
      ((firstPass oldTokens newTokens fuel a b).map Prod.snd).Nodup := by
  intro fuel
  induction fuel with
  | zero => intro a b; simp [firstPass]
  | succ fuel ih =>
    intro a b
    rw [firstPass]
    split
    · split
      · simp only [List.map_cons, List.nodup_cons]
        refine ⟨⟨?_, (ih (a + 1) (b + 1)).1⟩, ⟨?_, (ih (a + 1) (b + 1)).2⟩⟩
        · intro hmem
          rcases List.mem_map.mp hmem with ⟨p, hp, hfst⟩
          have := firstPass_bounds oldTokens newTokens fuel (a + 1) (b + 1) p hp
          omega
        · intro hmem
          rcases List.mem_map.mp hmem with ⟨p, hp, hsnd⟩
          have := firstPass_bounds oldTokens newTokens fuel (a + 1) (b + 1) p hp
          omega
      · exact ih a (b + 1)
    · simp

theorem bestMatchStep_cases (oldTokens newTokens : List CodeToken)
    (result : List (Nat × Nat)) (newIndex : Nat) (best : Int × ℚ) (oldIndex : Nat) :
    bestMatchStep oldTokens newTokens result newIndex best oldIndex = best ∨
      (result.any (fun r => r.1 = oldIndex) = false ∧
        (bestMatchStep oldTokens newTokens result newIndex best oldIndex).1 = (oldIndex : Int)) := by
  unfold bestMatchStep
  split
  · exact Or.inl rfl
  · rename_i hused
    dsimp only
    repeat' split
    all_goals first
      | exact Or.inl rfl
      | exact Or.inr ⟨Bool.eq_false_iff.mpr hused, rfl⟩

theorem bestMatchFor_spec (oldTokens newTokens : List CodeToken)
    (result : List (Nat × Nat)) (newIndex : Nat) :
    (bestMatchFor oldTokens newTokens result newIndex).1 = -1 ∨
      (∃ b : Nat, (bestMatchFor oldTokens newTokens result newIndex).1 = (b : Int) ∧
        b < oldTokens.length ∧ result.any (fun r => r.1 = b) = false) := by
  unfold bestMatchFor
  have main : ∀ (l : List Nat), (∀ x ∈ l, x < oldTokens.length) →
      ∀ (init : Int × ℚ),
        (init.1 = -1 ∨ (∃ b : Nat, init.1 = (b : Int) ∧ b < oldTokens.length ∧
          result.any (fun r => r.1 = b) = false)) →
        ((l.foldl (bestMatchStep oldTokens newTokens result newIndex) init).1 = -1 ∨
          (∃ b : Nat,
            (l.foldl (bestMatchStep oldTokens newTokens result newIndex) init).1 = (b : Int) ∧
            b < oldTokens.length ∧ result.any (fun r => r.1 = b) = false)) := by
    intro l
    induction l with
    | nil => intro _ init h; exact h
    | cons x xs ihl =>
      intro hmem init h
      simp only [List.foldl_cons]
      refine ihl (fun y hy => hmem y (List.mem_cons_of_mem _ hy)) _ ?_
      rcases bestMatchStep_cases oldTokens newTokens result newIndex init x with heq | ⟨hu, hfst⟩
      · rw [heq]; exact h
      · right
        exact ⟨x, hfst, hmem x (List.mem_cons_self _ _), hu⟩
  exact main (List.range oldTokens.length) (fun x hx => List.mem_range.mp hx) _ (Or.inl rfl)

theorem lcsInv_append {oldLen newLen : Nat} {result : List (Nat × Nat)} {b n : Nat}
    (hb : b < oldLen) (hn : n < newLen)
    (hbf : ∀ p ∈ result, p.1 ≠ b) (hnf : ∀ p ∈ result, p.2 ≠ n)
    (h : lcsInv oldLen newLen result) : lcsInv oldLen newLen (result ++ [(b, n)]) := by
  obtain ⟨h1, h2, h3⟩ := h
  refine ⟨?_, ?_, ?_⟩
  · rw [List.map_append, List.nodup_append]
    refine ⟨h1, by simp, ?_⟩
    intro x hx hy
    simp only [List.map_cons, List.map_nil, List.mem_singleton] at hy
    subst hy
    rcases List.mem_map.mp hx with ⟨p, hp, rfl⟩
    exact hbf p hp rfl
  · rw [List.map_append, List.nodup_append]
    refine ⟨h2, by simp, ?_⟩
    intro x hx hy
    simp only [List.map_cons, List.map_nil, List.mem_singleton] at hy
    subst hy
    rcases List.mem_map.mp hx with ⟨p, hp, rfl⟩
    exact hnf p hp rfl
  · intro p hp
    rcases List.mem_append.mp hp with hmem | hmem
    · exact h3 p hmem
    · simp only [List.mem_singleton] at hmem
      subst hmem
      exact ⟨hb, hn⟩

theorem secondPassFrom_inv (oldTokens newTokens : List CodeToken) :
    ∀ fuel result newIndex, lcsInv oldTokens.length newTokens.length result →
      lcsInv oldTokens.length newTokens.length
        (secondPassFrom oldTokens newTokens fuel result newIndex) := by
  intro fuel
  induction fuel with
  | zero => intro result newIndex h; simpa [secondPassFrom] using h
  | succ fuel ih =>
    intro result newIndex h
    rw [secondPassFrom]
    split
    · rename_i hlt
      split
      · exact ih result (newIndex + 1) h
      · rename_i hskip
        dsimp only
        split
        · rename_i hacc
          refine ih _ _ ?_
          obtain ⟨hne, hgt⟩ := hacc
          rcases bestMatchFor_spec oldTokens newTokens result newIndex with hbm | ⟨b, hb1, hb2, hb3⟩
          · exact absurd hbm hne
          · rw [hb1]
            rw [show ((b : Int)).toNat = b from rfl]
            refine lcsInv_append hb2 hlt ?_ ?_ h
            · intro p hp
              have := List.any_eq_false.mp hb3 p hp
              simpa using this
            · intro p hp
              have hsf : (result.any fun r => decide (r.2 = newIndex)) = false :=
                Bool.eq_false_iff.mpr hskip
              have := List.any_eq_false.mp hsf p hp
              simpa using this
        · exact ih result (newIndex + 1) h
    · exact h

theorem lcsInv_of_perm {oldLen newLen : Nat} {l l' : List (Nat × Nat)} (hp : l.Perm l')
    (h : lcsInv oldLen newLen l) : lcsInv oldLen newLen l' :=
  ⟨((hp.map Prod.fst).nodup_iff).mp h.1, ((hp.map Prod.snd).nodup_iff).mp h.2.1,
    fun p hple => h.2.2 p ((hp.mem_iff).mpr hple)⟩

theorem findLongestCommonSubsequence_inv (oldTokens newTokens : List CodeToken) :
    lcsInv oldTokens.length newTokens.length
      (findLongestCommonSubsequence oldTokens newTokens) := by
  unfold findLongestCommonSubsequence sortByNewIndex
  refine lcsInv_of_perm (List.perm_insertionSort _ _).symm ?_
  refine secondPassFrom_inv oldTokens newTokens _ _ _ ?_
  refine ⟨(firstPass_nodup oldTokens newTokens _ 0 0).1,
    (firstPass_nodup oldTokens newTokens _ 0 0).2, ?_⟩
  intro p hp
  have := firstPass_bounds oldTokens newTokens _ 0 0 p hp
  exact ⟨this.2.1, this.2.2.2⟩

/- ### Counting helpers (toward C2) -/

theorem countP_range_eq_one {p : Nat → Bool} {k m : Nat} (hm : m < k)
    (hp : ∀ n, n < k → (p n = true ↔ n = m)) : (List.range k).countP p = 1 := by
  induction k with
  | zero => omega
  | succ k ihk =>
    rw [List.range_succ, List.countP_append]
    by_cases hmk : m = k
    · subst hmk
      have h0 : (List.range m).countP p = 0 := by
        refine List.countP_eq_zero.mpr ?_
        intro a ha
        have halt := List.mem_range.mp ha
        intro hpa
        have := (hp a (by omega)).mp hpa
        omega
      have h1 : ([m].countP p) = 1 := by
        have := (hp m (by omega)).mpr rfl
        simp [List.countP_cons, this]
      omega
    · have hmlt : m < k := by omega
      rw [ihk hmlt (fun n hn => hp n (by omega))]
      have hpk : p k = false := by
        by_contra hc
        have hptrue : p k = true := by revert hc; cases p k <;> simp
        have := (hp k (by omega)).mp hptrue
        omega
      have h0 : ([k].countP p) = 0 := by simp [List.countP_cons, hpk]
      omega

theorem countP_range_eq_zero {p : Nat → Bool} {k : Nat}
    (hp : ∀ n, n < k → p n = false) : (List.range k).countP p = 0 := by
  refine List.countP_eq_zero.mpr ?_
  intro a ha
  simp [hp a (List.mem_range.mp ha)]

theorem find?_snd_eq_of_mem {l : List (Nat × Nat)} (hnd : (l.map Prod.snd).Nodup)
    {p : Nat × Nat} (hp : p ∈ l) : l.find? (fun m => m.2 = p.2) = some p := by
  induction l with
  | nil => simp at hp
  | cons q l ih =>
    simp only [List.map_cons, List.nodup_cons] at hnd
    by_cases hq : q.2 = p.2
    · rcases List.mem_cons.mp hp with rfl | hmem
      · exact List.find?_cons_of_pos _ (by simp)
      · exfalso
        exact hnd.1 (hq ▸ List.mem_map.mpr ⟨p, hmem, rfl⟩)
    · rw [List.find?_cons_of_neg _ (by simpa using hq)]
      rcases List.mem_cons.mp hp with rfl | hmem
      · exact absurd rfl hq
      · exact ih hnd.2 hmem

theorem countP_mapIdx_index {α : Type} (l : List α) (f : Nat → α → DiffToken)
    (p : DiffToken → Bool) (q : Nat → Bool) (hq : ∀ i a, p (f i a) = q i) :
    (l.mapIdx f).countP p = (List.range l.length).countP q := by
  rw [List.mapIdx_eq_enum_map, List.countP_map]
  have h1 : (p ∘ Function.uncurry f) = (fun x : Nat × α => q x.1) := by
    funext x
    exact hq x.1 x.2
  rw [h1]
  have h2 : (fun x : Nat × α => q x.1) = (q ∘ Prod.fst) := rfl
  rw [h2, ← List.countP_map, List.enum_map_fst]

theorem mem_mapIdx_shape {α : Type} {l : List α} {f : Nat → α → DiffToken} {dt : DiffToken}
    (h : dt ∈ l.mapIdx f) : ∃ i a, i < l.length ∧ dt = f i a := by
  rw [List.mapIdx_eq_enum_map] at h
  rcases List.mem_map.mp h with ⟨⟨i, a⟩, hmem, rfl⟩
  have hi : i ∈ (l.enum.map Prod.fst) := List.mem_map.mpr ⟨(i, a), hmem, rfl⟩
  rw [List.enum_map_fst] at hi
  exact ⟨i, a, List.mem_range.mp hi, rfl⟩

theorem countP_eq_one_of_nodup_mem {l : List Nat} {o : Nat} (hnd : l.Nodup) (hmem : o ∈ l) :
    l.countP (fun i => decide (i = o)) = 1 := by
  have h : l.countP (fun i => decide (i = o)) = l.count o :=
    List.countP_congr (fun a _ => by by_cases hao : a = o <;> simp [hao])
  rw [h]
  exact List.count_eq_one_of_mem hnd hmem

theorem diffNewToken_newIndex (oldTokens newTokens : List CodeToken)
    (lcs : List (Nat × Nat)) (i : Nat) :
    (diffNewToken oldTokens newTokens lcs i).newIndex = (i : Int) := by
  unfold diffNewToken
  cases h : lcs.find? (fun m => m.2 = i) <;> simp [h]

theorem diffNewToken_of_find_some {oldTokens newTokens : List CodeToken}
    {lcs : List (Nat × Nat)} {i : Nat} {m : Nat × Nat}
    (h : lcs.find? (fun mm => mm.2 = i) = some m) :
    diffNewToken oldTokens newTokens lcs i =
      { type := (newTokens.getD i dummyToken).type,
        content := (newTokens.getD i dummyToken).content,
        id := (oldTokens.getD m.1 dummyToken).id,
        status := .unchanged, oldIndex := some m.1, newIndex := (i : Int) } := by
  unfold diffNewToken
  rw [h]

theorem diffNewToken_of_find_none {oldTokens newTokens : List CodeToken}
    {lcs : List (Nat × Nat)} {i : Nat}
    (h : lcs.find? (fun mm => mm.2 = i) = none) :
    diffNewToken oldTokens newTokens lcs i =
      { type := (newTokens.getD i dummyToken).type,
        content := (newTokens.getD i dummyToken).content,
        id := (newTokens.getD i dummyToken).id,
        status := .added, oldIndex := none, newIndex := (i : Int) } := by
  unfold diffNewToken
  rw [h]

theorem mainPart_countP_oldIndex (oldTokens newTokens : List CodeToken)
    (lcs : List (Nat × Nat)) (hinv : lcsInv oldTokens.length newTokens.length lcs) (o : Nat) :
    ((List.range newTokens.length).map (diffNewToken oldTokens newTokens lcs)).countP
        (fun dt => decide (dt.oldIndex = some o)) =
      if o ∈ lcs.map Prod.fst then 1 else 0 := by
  rw [List.countP_map]
  by_cases ho : o ∈ lcs.map Prod.fst
  · rw [if_pos ho]
    rcases List.mem_map.mp ho with ⟨m₀, hm₀, rfl⟩
    apply countP_range_eq_one (hinv.2.2 m₀ hm₀).2
    intro n hn
    simp only [Function.comp_apply, decide_eq_true_eq]
    constructor
    · intro hpn
      rcases hfind : lcs.find? (fun mm => mm.2 = n) with _ | m
      · rw [diffNewToken_of_find_none hfind] at hpn
        simp at hpn
      · rw [diffNewToken_of_find_some hfind] at hpn
        simp only [Option.some.injEq] at hpn
        have hmem := List.mem_of_find?_eq_some hfind
        have hm2 : m.2 = n := by simpa using List.find?_some hfind
        have hmm : m = m₀ := List.inj_on_of_nodup_map hinv.1 hmem hm₀ hpn
        rw [← hm2, hmm]
    · intro hn_eq
      subst hn_eq
      rw [diffNewToken_of_find_some (find?_snd_eq_of_mem hinv.2.1 hm₀)]
  · rw [if_neg ho]
    apply countP_range_eq_zero
    intro n hn
    simp only [Function.comp_apply]
    rcases hfind : lcs.find? (fun mm => mm.2 = n) with _ | m
    · rw [diffNewToken_of_find_none hfind]
      simp
    · rw [diffNewToken_of_find_some hfind]
      simp only [decide_eq_false_iff_not, Option.some.injEq]
      intro heq
      have hmem := List.mem_of_find?_eq_some hfind
      exact ho (heq ▸ List.mem_map.mpr ⟨m, hmem, rfl⟩)

theorem removedPart_countP_oldIndex (oldTokens : List CodeToken)
    (lcs : List (Nat × Nat)) (o : Nat) (ho : o < oldTokens.length) :
    (((List.range oldTokens.length).filter
          (fun oldIndex => !(lcs.any (fun m => m.1 = oldIndex)))).map
        (diffRemovedToken oldTokens)).countP (fun dt => decide (dt.oldIndex = some o)) =
      if o ∈ lcs.map Prod.fst then 0 else 1 := by
  rw [List.countP_map]
  have hcongr : ∀ a ∈ (List.range oldTokens.length).filter
      (fun oldIndex => !(lcs.any (fun m => m.1 = oldIndex))),
      (((fun dt => decide (dt.oldIndex = some o)) ∘ diffRemovedToken oldTokens) a = true ↔
        (fun i => decide (i = o)) a = true) := by
    intro a _
    simp [diffRemovedToken]
  rw [List.countP_congr hcongr]
  by_cases ho2 : o ∈ lcs.map Prod.fst
  · rw [if_pos ho2]
    apply List.countP_eq_zero.mpr
    intro a ha
    simp only [decide_eq_true_eq]
    intro hae
    subst hae
    have hcond := (List.mem_filter.mp ha).2
    rcases List.mem_map.mp ho2 with ⟨m, hm, hmo⟩
    have hany : lcs.any (fun mm => decide (mm.1 = a)) = true :=
      List.any_eq_true.mpr ⟨m, hm, by simp [hmo]⟩
    rw [hany] at hcond
    simp at hcond
  · rw [if_neg ho2]
    apply countP_eq_one_of_nodup_mem ((List.nodup_range _).filter _)
    apply List.mem_filter.mpr
    refine ⟨List.mem_range.mpr ho, ?_⟩
    simp only [Bool.not_eq_true']
    apply List.any_eq_false.mpr
    intro m hm
    simp only [decide_eq_true_eq]
    intro heq
    exact ho2 (heq ▸ List.mem_map.mpr ⟨m, hm, rfl⟩)

theorem mainPart_countP_newIndex (oldTokens newTokens : List CodeToken)
    (lcs : List (Nat × Nat)) (n : Nat) (hn : n < newTokens.length) :
    ((List.range newTokens.length).map (diffNewToken oldTokens newTokens lcs)).countP
        (fun dt => decide (dt.newIndex = (n : Int))) = 1 := by
  rw [List.countP_map]
  apply countP_range_eq_one hn
  intro i hi
  simp only [Function.comp_apply, diffNewToken_newIndex, decide_eq_true_eq]
  exact Int.natCast_inj

theorem removedPart_countP_newIndex (oldTokens : List CodeToken) (l : List Nat) (n : Nat) :
    ((l.map (diffRemovedToken oldTokens)).countP
        (fun dt => decide (dt.newIndex = (n : Int)))) = 0 := by
  rw [List.countP_map]
  apply List.countP_eq_zero.mpr
  intro a _
  simp only [Function.comp_apply, diffRemovedToken, decide_eq_true_eq]
  omega

/- ### C2 -/

/-- C2: in the output of `computeDiff`, every old-sequence index appears
as the `oldIndex` of exactly one result token, every new-sequence index
appears as the `newIndex` of exactly one result token, and the statuses
line up: a token carries an `oldIndex` exactly when it is `unchanged` or
`removed`, and a non-negative `newIndex` exactly when it is `unchanged`
or `added`. -/
theorem computeDiff_coverage (oldTokens newTokens : List CodeToken) :
    (∀ o, o < oldTokens.length →
      ((computeDiff oldTokens newTokens).filter
          (fun dt => dt.oldIndex = some o)).length = 1) ∧
    (∀ n, n < newTokens.length →
      ((computeDiff oldTokens newTokens).filter
          (fun dt => dt.newIndex = (n : Int))).length = 1) ∧
    (∀ dt ∈ computeDiff oldTokens newTokens,
      ((∃ o, dt.oldIndex = some o) ↔
        (dt.status = .unchanged ∨ dt.status = .removed)) ∧
      ((0 ≤ dt.newIndex) ↔ (dt.status = .unchanged ∨ dt.status = .added))) := by
  refine ⟨?_, ?_, ?_⟩
  · intro o ho
    unfold computeDiff
    rw [if_neg (by omega)]
    by_cases hnl : newTokens.length = 0
    · rw [if_pos hnl]
      rw [← List.countP_eq_length_filter]
      rw [countP_mapIdx_index _ _ _ (fun i => decide (i = o)) (by intro i a; simp)]
      exact countP_eq_one_of_nodup_mem (List.nodup_range _) (List.mem_range.mpr ho)
    · rw [if_neg hnl]
      dsimp only
      rw [← List.countP_eq_length_filter, List.countP_append]
      rw [mainPart_countP_oldIndex oldTokens newTokens _
        (findLongestCommonSubsequence_inv oldTokens newTokens) o]
      rw [removedPart_countP_oldIndex oldTokens _ o ho]
      by_cases hmem : o ∈ (findLongestCommonSubsequence oldTokens newTokens).map Prod.fst <;>
        simp [hmem]
  · intro n hn
    unfold computeDiff
    by_cases hol : oldTokens.length = 0
    · rw [if_pos hol]
      rw [← List.countP_eq_length_filter]
      rw [countP_mapIdx_index _ _ _ (fun i => decide (i = n)) ?hq]
      case hq =>
        intro i a
        simp only
        rw [decide_eq_decide]
        exact Int.natCast_inj
      exact countP_eq_one_of_nodup_mem (List.nodup_range _) (List.mem_range.mpr hn)
    · rw [if_neg hol, if_neg (by omega)]
      dsimp only
      rw [← List.countP_eq_length_filter, List.countP_append]
      rw [mainPart_countP_newIndex oldTokens newTokens _ n hn]
      rw [removedPart_countP_newIndex]
  · intro dt hdt
    unfold computeDiff at hdt
    by_cases hol : oldTokens.length = 0
    · rw [if_pos hol] at hdt
      rcases mem_mapIdx_shape hdt with ⟨i, a, hi, rfl⟩
      constructor
      · simp
      · simp [Int.natCast_nonneg]
    · rw [if_neg hol] at hdt
      by_cases hnl : newTokens.length = 0
      · rw [if_pos hnl] at hdt
        rcases mem_mapIdx_shape hdt with ⟨i, a, hi, rfl⟩
        constructor
        · simp
        · simp
      · rw [if_neg hnl] at hdt
        dsimp only at hdt
        rcases List.mem_append.mp hdt with hmain | hrem
        · rcases List.mem_map.mp hmain with ⟨i, _, rfl⟩
          rcases hfind : (findLongestCommonSubsequence oldTokens newTokens).find?
              (fun mm => mm.2 = i) with _ | m
          · rw [diffNewToken_of_find_none hfind]
            constructor
            · simp
            · simp [Int.natCast_nonneg]
          · rw [diffNewToken_of_find_some hfind]
            constructor
            · simp
            · simp [Int.natCast_nonneg]
        · rcases List.mem_map.mp hrem with ⟨i, _, rfl⟩
          constructor
          · simp [diffRemovedToken]
          · simp [diffRemovedToken]

/-- C2 (witness): coverage applied to a concrete one-token-old,
two-token-new diff. -/
theorem computeDiff_coverage_witness :
    ((computeDiff [⟨.text, "a", "old-a"⟩]
        [⟨.text, "a", "new-a"⟩, ⟨.text, "b", "new-b"⟩]).filter
      (fun dt => dt.oldIndex = some 0)).length = 1 ∧
    ((computeDiff [⟨.text, "a", "old-a"⟩]
        [⟨.text, "a", "new-a"⟩, ⟨.text, "b", "new-b"⟩]).filter
      (fun dt => dt.newIndex = ((1 : Nat) : Int))).length = 1 :=
  ⟨(computeDiff_coverage [⟨.text, "a", "old-a"⟩]
      [⟨.text, "a", "new-a"⟩, ⟨.text, "b", "new-b"⟩]).1 0 (by decide),
   (computeDiff_coverage [⟨.text, "a", "old-a"⟩]
      [⟨.text, "a", "new-a"⟩, ⟨.text, "b", "new-b"⟩]).2.1 1 (by decide)⟩

/- ### C3 -/

/-- C3: every `unchanged` token in `computeDiff`'s output carries the id
of the **old** token at its `oldIndex` (identity preservation), not the
id of the new token it was built from. -/
theorem computeDiff_unchanged_id (oldTokens newTokens : List CodeToken) :
    ∀ dt ∈ computeDiff oldTokens newTokens, dt.status = .unchanged →
      ∃ o, dt.oldIndex = some o ∧ o < oldTokens.length ∧
        dt.id = (oldTokens.getD o dummyToken).id := by
  intro dt hdt hst
  unfold computeDiff at hdt
  by_cases hol : oldTokens.length = 0
  · rw [if_pos hol] at hdt
    rcases mem_mapIdx_shape hdt with ⟨i, a, hi, rfl⟩
    simp at hst
  · rw [if_neg hol] at hdt
    by_cases hnl : newTokens.length = 0
    · rw [if_pos hnl] at hdt
      rcases mem_mapIdx_shape hdt with ⟨i, a, hi, rfl⟩
      simp at hst
    · rw [if_neg hnl] at hdt
      dsimp only at hdt
      rcases List.mem_append.mp hdt with hmain | hrem
      · rcases List.mem_map.mp hmain with ⟨i, _, rfl⟩
        rcases hfind : (findLongestCommonSubsequence oldTokens newTokens).find?
            (fun mm => mm.2 = i) with _ | m
        · rw [diffNewToken_of_find_none hfind] at hst ⊢
          simp at hst
        · rw [diffNewToken_of_find_some hfind]
          refine ⟨m.1, rfl, ?_, rfl⟩
          have hmem := List.mem_of_find?_eq_some hfind
          exact ((findLongestCommonSubsequence_inv oldTokens newTokens).2.2 m hmem).1
      · rcases List.mem_map.mp hrem with ⟨i, _, rfl⟩
        simp [diffRemovedToken] at hst

/-- C3 (witness): the matched token of a concrete diff keeps the old id
`"old-a"` found at its `oldIndex` 0. -/
theorem computeDiff_unchanged_id_witness :
    ∃ o, (⟨.text, "a", "old-a", .unchanged, some 0, 0⟩ : DiffToken).oldIndex = some o ∧
      o < ([⟨.text, "a", "old-a"⟩] : List CodeToken).length ∧
      (⟨.text, "a", "old-a", .unchanged, some 0, 0⟩ : DiffToken).id =
        (([⟨.text, "a", "old-a"⟩] : List CodeToken).getD o dummyToken).id :=
  computeDiff_unchanged_id [⟨.text, "a", "old-a"⟩] [⟨.text, "a", "new-a"⟩]
    ⟨.text, "a", "old-a", .unchanged, some 0, 0⟩ (by decide) (by decide)

/- ### Toward C9: malformed input and per-step progress -/

theorem scanWith_nil (step : Char → List Char → TokenType × Nat) (sessionId : String)
    (fuel pos g l : Nat) : scanWith step sessionId fuel [] pos g l = [] := by
  cases fuel <;> rfl

theorem strScan_full (q : Char) :
    ∀ (rest : List Char) (prev : Char),
      (∀ i, i < rest.length → rest.getD i ' ' = q → (prev :: rest).getD i ' ' = '\\') →
      strScan q prev rest = rest.length := by
  intro rest
  induction rest with
  | nil => intro prev _; rfl
  | cons c rest ih =>
    intro prev h
    rw [strScan]
    split
    · rename_i hcond
      rw [Bool.and_eq_true, decide_eq_true_eq, decide_eq_true_eq] at hcond
      obtain ⟨hc, hp⟩ := hcond
      have h0 := h 0 (by simp) (by simpa using hc)
      simp only [List.getD_cons_zero] at h0
      exact absurd h0 hp
    · rw [ih c ?_]
      · simp [Nat.add_comm]
      · intro i hi hq2
        have := h (i + 1) (by simpa using Nat.succ_lt_succ hi)
          (by simpa [List.getD_cons_succ] using hq2)
        simpa [List.getD_cons_succ] using this

theorem jsStep_quote (q : Char) (rest : List Char)
    (hq : q = '"' ∨ q = '\'' ∨ q = backquoteChar) :
    jsStep q rest = (.string, 1 + strScan q q rest) := by
  rcases hq with rfl | rfl | rfl <;> rfl

theorem tokenizeJavaScript_unterminated_string (q : Char) (rest : List Char)
    (sessionId : String) (g l : Nat)
    (hq : q = '"' ∨ q = '\'' ∨ q = backquoteChar)
    (hopen : ∀ i, i < rest.length → rest.getD i ' ' = q → (q :: rest).getD i ' ' = '\\') :
    tokenizeJavaScript ⟨q :: rest⟩ sessionId g l =
      [{ type := .string, content := ⟨q :: rest⟩, id := mkId5 sessionId .string g l 0 }] := by
  unfold tokenizeJavaScript
  rw [show (⟨q :: rest⟩ : String).data = q :: rest from rfl]
  rw [show (q :: rest).length = rest.length + 1 from rfl]
  rw [scanWith]
  rw [jsStep_quote q rest hq]
  rw [strScan_full q rest q hopen]
  simp only
  rw [List.take_of_length_le (by simp [Nat.add_comm])]
  rw [List.drop_eq_nil_of_le (by simp [Nat.add_comm])]
  rw [scanWith_nil]

theorem tokenizeJavaScript_last_to_eoi (code sessionId : String) (g l : Nat)
    (hne : code ≠ "") :
    ∃ hne2 : tokenizeJavaScript code sessionId g l ≠ [],
      ∃ pre : List Char,
        code.data =
          pre ++ ((tokenizeJavaScript code sessionId g l).getLast hne2).content.data := by
  have hrt := tokenizeJavaScript_roundtrip code sessionId g l
  have hne2 : tokenizeJavaScript code sessionId g l ≠ [] := by
    intro hnil
    rw [hnil] at hrt
    unfold tokensText at hrt
    apply hne
    rw [← hrt]
    rfl
  refine ⟨hne2, ((tokenizeJavaScript code sessionId g l).dropLast.map
    (fun t => t.content.data)).flatten, ?_⟩
  have hdata : code.data =
      ((tokenizeJavaScript code sessionId g l).map (fun t => t.content.data)).flatten := by
    have hd2 := congrArg String.data hrt
    rw [← hd2]
    rfl
  rw [hdata]
  conv_lhs => rw [← List.dropLast_append_getLast hne2]
  rw [List.map_append, List.flatten_append]
  simp

theorem mk_take_ne_empty {c : Char} {rest : List Char} {k : Nat} (hk : 1 ≤ k) :
    (⟨(c :: rest).take k⟩ : String) ≠ "" := by
  intro hcon
  have hd : ((c :: rest).take k) = ([] : List Char) := congrArg String.data hcon
  rcases Nat.exists_eq_succ_of_ne_zero (n := k) (by omega) with ⟨k2, rfl⟩
  simp [List.take_succ_cons] at hd

theorem tagTokensAux_content_ne (sessionId : String) (startPos : Nat) :
    ∀ fuel (s : List Char) (g l sub : Nat),
      ∀ t ∈ tagTokensAux sessionId startPos fuel s g l sub, t.content ≠ "" := by
  intro fuel
  induction fuel with
  | zero =>
    intro s g l sub t ht
    cases s <;> simp [tagTokensAux] at ht
  | succ fuel ih =>
    intro s g l sub t ht
    cases s with
    | nil => simp [tagTokensAux] at ht
    | cons c rest =>
      rw [tagTokensAux] at ht
      split at ht
      · rcases hname : tagNameLen (c :: rest) with _ | n
        · rw [hname] at ht
          exact ih rest g l sub t ht
        · rw [hname] at ht
          rcases List.mem_cons.mp ht with rfl | hmem
          · exact mk_take_ne_empty (tagNameLen_pos hname)
          · exact ih _ _ _ _ t hmem
      · split at ht
        · rename_i hws
          rcases List.mem_cons.mp ht with rfl | hmem
          · exact mk_take_ne_empty (by simp [List.takeWhile_cons, hws])
          · exact ih _ _ _ _ t hmem
        · split at ht
          · dsimp only at ht
            split at ht
            · rcases List.mem_cons.mp ht with rfl | hmem
              · exact mk_take_ne_empty (by omega)
              · exact ih _ _ _ _ t hmem
            · exact ih _ _ _ _ t ht
          · split at ht
            · rcases List.mem_cons.mp ht with rfl | hmem
              · intro hcon
                have hd : (">" : String).data = ("" : String).data :=
                  congrArg String.data hcon
                simp at hd
              · exact ih _ _ _ _ t hmem
            · exact ih _ _ _ _ t ht

theorem tokenizeHTMLAux_content_ne (sessionId : String) :
    ∀ fuel (s : List Char) (pos g l : Nat),
      ∀ t ∈ tokenizeHTMLAux sessionId fuel s pos g l, t.content ≠ "" := by
  intro fuel
  induction fuel with
  | zero =>
    intro s pos g l t ht
    cases s <;> simp [tokenizeHTMLAux] at ht
  | succ fuel ih =>
    intro s pos g l t ht
    cases s with
    | nil => simp [tokenizeHTMLAux] at ht
    | cons c rest =>
      rw [tokenizeHTMLAux] at ht
      split at ht
      · rcases hmatch : tagMatchLen (c :: rest) with _ | n
        · rw [hmatch] at ht
          exact ih rest (pos + 1) g l t ht
        · rw [hmatch] at ht
          dsimp only at ht
          rcases List.mem_append.mp ht with hinner | hmem
          · exact tagTokensAux_content_ne sessionId pos n _ g l 0 t hinner
          · exact ih _ _ _ _ t hmem
      · split at ht
        · rename_i hws
          rcases List.mem_cons.mp ht with rfl | hmem
          · exact mk_take_ne_empty (by simp [List.takeWhile_cons, hws])
          · exact ih _ _ _ _ t hmem
        · rename_i hlt hws
          rcases List.mem_cons.mp ht with rfl | hmem
          · refine mk_take_ne_empty ?_
            simp [List.takeWhile_cons, hlt, hws]
          · exact ih _ _ _ _ t hmem

/- ### C9 -/

/-- C9: the scanners are total and always make progress — every emitted
token has non-empty content (each scan step consumes at least one
character), concatenating the emitted contents reproduces the whole
input for the JavaScript and CSS scanners, a non-empty input always
yields tokens whose final token's content runs to the end of the input,
and an unterminated string literal yields a single token covering the
entire rest of the input instead of looping. -/
theorem tokenizer_total_spec :
    (∀ code sessionId g l, ∀ t ∈ tokenizeJavaScript code sessionId g l, t.content ≠ "") ∧
    (∀ code sessionId g l, ∀ t ∈ tokenizeCSS code sessionId g l, t.content ≠ "") ∧
    (∀ code sessionId g l, ∀ t ∈ tokenizeHTML code sessionId g l, t.content ≠ "") ∧
    (∀ code sessionId g l, tokensText (tokenizeJavaScript code sessionId g l) = code) ∧
    (∀ code sessionId g l, tokensText (tokenizeCSS code sessionId g l) = code) ∧
    (∀ code sessionId g l, code ≠ "" →
      ∃ hne : tokenizeJavaScript code sessionId g l ≠ [],
        ∃ pre : List Char,
          code.data =
            pre ++ ((tokenizeJavaScript code sessionId g l).getLast hne).content.data) ∧
    (∀ (q : Char) (rest : List Char) (sessionId : String) (g l : Nat),
      (q = '"' ∨ q = '\'' ∨ q = backquoteChar) →
      (∀ i, i < rest.length → rest.getD i ' ' = q → (q :: rest).getD i ' ' = '\\') →
      tokenizeJavaScript ⟨q :: rest⟩ sessionId g l =
        [{ type := .string, content := ⟨q :: rest⟩,
           id := mkId5 sessionId .string g l 0 }]) := by
  refine ⟨?_, ?_, ?_, tokenizeJavaScript_roundtrip, tokenizeCSS_roundtrip,
    tokenizeJavaScript_last_to_eoi, tokenizeJavaScript_unterminated_string⟩
  · intro code sessionId g l t ht
    exact scanWith_content_ne jsStep jsStep_pos sessionId code.data.length code.data 0 g l t ht
  · intro code sessionId g l t ht
    exact scanWith_content_ne cssStep cssStep_pos sessionId code.data.length code.data 0 g l t ht
  · intro code sessionId g l t ht
    exact tokenizeHTMLAux_content_ne sessionId code.data.length code.data 0 g l t ht

/-- C9 (witness): tokenizing the unterminated string `"ab` yields the
single string token covering the whole input. -/
theorem tokenizer_total_spec_witness :
    tokenizeJavaScript ⟨'"' :: "ab".data⟩ "s" 0 0 =
      [{ type := TokenType.string, content := ⟨'"' :: "ab".data⟩,
         id := mkId5 "s" TokenType.string 0 0 0 }] :=
  tokenizer_total_spec.2.2.2.2.2.2 '"' "ab".data "s" 0 0 (Or.inl rfl) (by decide)
